import Mathlib

/-! Man page rendering of go-flags (`man.go`).

A shallow embedding of the groff renderer of `src/man.go` and the properties
of it that the specification states.

* Go strings are byte sequences, so a text is a `List UInt8`; `str` gives the
  bytes of a literal.  `s[:i]` is `List.take i`, `s[i+1:]` is `List.drop (i+1)`.
* The `io.Writer` is the sequence of bytes written so far; every `fmt.Fprintf`
  appends to it.
* The unbounded `for` loop of `formatForMan` runs on fuel and returns `none`
  when the fuel is used up; `formatForMan` starts it with `len(s) + 1`.
* Groups and commands are finite trees; the walkers recurse on them.  The
  `parent` links of a command are the chain of names the ancestry loop reads.
* `WriteManPage` reads the clock and the environment from a `Host` and ends in a
  `Run`: it returned, or it panicked, with the sink as it is at that point.
-/

set_option maxRecDepth 20000

namespace Flags

/-- A Go `string`: a finite sequence of bytes. -/
abbrev Text := List UInt8

/-- The bytes of a string literal of the source (Go source text is UTF-8). -/
def str (s : String) : Text := s.data.flatMap String.utf8EncodeChar

/-- The byte of the rune `'\\'`. -/
def backslash : UInt8 := 0x5C

/-- The byte of the backtick rune. -/
def backtick : UInt8 := 0x60

/-- The byte of the rune `'\''`. -/
def apostrophe : UInt8 := 0x27

/-- Go `strings.IndexRune(s, r)` for an ASCII rune `r`, which the library computes
as the index of the first byte equal to `r`; `none` stands for `-1`. -/
def indexRune (s : Text) (c : UInt8) : Option Nat :=
  match s with
  | [] => none
  | x :: xs => if x = c then some 0 else (indexRune xs c).map (· + 1)

/-- Go `strings.Replace(s, old, new, -1)` for a one-byte `old`: every instance of
`old` is replaced by `new`, the other bytes are copied. -/
def replaceAll (s : Text) (old : UInt8) (new : Text) : Text :=
  match s with
  | [] => []
  | x :: xs => if x = old then new ++ replaceAll xs old new else x :: replaceAll xs old new

/-- Go `strings.Join(elems, sep)`. -/
def join (elems : List Text) (sep : Text) : Text := sep.intercalate elems

/-- The function `manQuote` (man.go:13-15). -/
def manQuote (s : Text) : Text :=
  replaceAll s backslash (str "\\\\")

/-- The `for` loop of `formatForMan` (man.go:18-38): `wr` is what has been
written, `s` the text still to scan.  One unit of fuel is one iteration. -/
def formatForManLoop : Nat → Text → Text → Option Text
  | 0, _, _ => none
  | fuel + 1, wr, s =>
    match indexRune s backtick with
    | none => some (wr ++ manQuote s)
    | some idx =>
      let wr := wr ++ manQuote (s.take idx)
      let s := s.drop (idx + 1)
      match indexRune s apostrophe with
      | none => some (wr ++ manQuote s)
      | some idx =>
        let wr := wr ++ (str "\\fB" ++ manQuote (s.take idx) ++ str "\\fP")
        formatForManLoop fuel wr (s.drop (idx + 1))

/-- The function `formatForMan` (man.go:17-39); the loop never needs more than
`len(s) + 1` iterations (`formatForManLoop_total`). -/
def formatForMan (wr : Text) (s : Text) : Option Text :=
  formatForManLoop (s.length + 1) wr s

/-! ## The data read by the renderer

`Option`, `Group` and their methods are declared in other files of the package;
the renderer only reads them.  The result of every method it calls is a field
here.  The Go type `Option` is `FlagOption`, since `Option` is Lean's own. -/

/-- Go `fmt` verb `%c` applied to a `rune` (an `int32`): the UTF-8 encoding of
the code point, and of U+FFFD when the value is not a valid code point. -/
def fmtC (r : Int) : Text :=
  if 0 ≤ r ∧ r ≤ 0x10FFFF ∧ ¬ (0xD800 ≤ r ∧ r ≤ 0xDFFF) then
    String.utf8EncodeChar (Char.ofNat r.toNat)
  else [0xEF, 0xBF, 0xBD]

/-- What `man.go` takes from outside the data it renders: the constant
`runtime.GOOS` and the helper `quoteV` of the package. -/
structure Env where
  /-- The constant `runtime.GOOS`. -/
  GOOS : Text
  /-- The helper `quoteV`, which quotes each value of a list. -/
  quoteV : List Text → List Text

/-- The fields and method results of an `*Option` that `man.go` reads. -/
structure FlagOption where
  Description : Text
  ShortName : Int
  LongName : Text
  Default : List Text
  OptionalArgument : Bool
  OptionalValue : List Text
  Required : Bool
  ValueName : Text
  /-- The result of `opt.LongNameWithNamespace()`. -/
  LongNameWithNamespace : Text
  /-- The result of `opt.EnvKeyWithNamespace()`. -/
  EnvKeyWithNamespace : Text
  /-- The result of `opt.showInHelp()`. -/
  showInHelp : Bool

/-- The fields and method results of a `*Group` that `man.go` reads. -/
structure Group where
  ShortDescription : Text
  LongDescription : Text
  options : List FlagOption
  groups : List Group
  /-- The result of `group.showInHelp()`. -/
  showInHelp : Bool

mutual
/-- The groups of the subtree of a group in depth-first pre-order: the group,
then the subtrees of its sub-groups in declared order. -/
def Group.preorder : Group → List Group
  | ⟨sd, ld, os, gs, v⟩ => ⟨sd, ld, os, gs, v⟩ :: preorderList gs
/-- The pre-order of a list of groups, one subtree after the other. -/
def preorderList : List Group → List Group
  | [] => []
  | g :: gs => g.preorder ++ preorderList gs
end

/-- Modelled from the spec: `Group.eachGroup` is declared outside `man.go`; the
spec describes it as one depth-first pre-order pass that calls the visitor on the
group and on its sub-groups at every depth.  The visitor writes to `wr`. -/
def Group.eachGroup (g : Group) (f : Text → Group → Option Text) (wr : Text) : Option Text :=
  g.preorder.foldlM f wr

/-! ## The option renderer and the group walker -/

/-- The body of the loop over `group.options` for a visible option
(man.go:63-105). -/
def writeOption (env : Env) (wr : Text) (opt : FlagOption) : Option Text :=
  let wr := wr ++ str ".TP" ++ str "\n"
  let wr := wr ++ str "\\fB"
  let wr :=
    if opt.ShortName ≠ 0 then wr ++ (str "\\fB\\-" ++ fmtC opt.ShortName ++ str "\\fR") else wr
  let wr :=
    if opt.LongName.length ≠ 0 then
      let wr := if opt.ShortName ≠ 0 then wr ++ str ", " else wr
      wr ++ (str "\\fB\\-\\-" ++ manQuote opt.LongNameWithNamespace ++ str "\\fR")
    else wr
  let wr :=
    if opt.ValueName.length ≠ 0 ∨ opt.OptionalArgument = true then
      if opt.OptionalArgument = true then
        wr ++ (str " [\\fI" ++ manQuote opt.ValueName ++ str "=" ++
          manQuote (join (env.quoteV opt.OptionalValue) (str ", ")) ++ str "\\fR]")
      else
        wr ++ (str " \\fI" ++ manQuote opt.ValueName ++ str "\\fR")
    else wr
  let wr :=
    if opt.Default.length ≠ 0 then
      wr ++ (str " <default: \\fI" ++ manQuote (join (env.quoteV opt.Default) (str ", ")) ++
        str "\\fR>")
    else if opt.EnvKeyWithNamespace.length ≠ 0 then
      if env.GOOS = str "windows" then
        wr ++ (str " <default: \\fI%" ++ manQuote opt.EnvKeyWithNamespace ++ str "%\\fR>")
      else
        wr ++ (str " <default: \\fI$" ++ manQuote opt.EnvKeyWithNamespace ++ str "\\fR>")
    else wr
  let wr := if opt.Required = true then wr ++ str " (\\fIrequired\\fR)" else wr
  let wr := wr ++ str "\\fP" ++ str "\n"
  if opt.Description.length ≠ 0 then
    (formatForMan wr opt.Description).map (fun wr => wr ++ str "\n")
  else some wr

/-- The loop `for _, opt := range group.options` (man.go:58-106). -/
def writeOptions (env : Env) (wr : Text) : List FlagOption → Option Text
  | [] => some wr
  | opt :: opts =>
    if opt.showInHelp = false then writeOptions env wr opts
    else (writeOption env wr opt).bind (fun wr => writeOptions env wr opts)

/-- The visitor that `writeManPageOptions` passes to `eachGroup` (man.go:42-107):
`grp` is the group `writeManPageOptions` was called on, `group` the visited one. -/
def visitGroup (env : Env) (grp : Group) (wr : Text) (group : Group) : Option Text :=
  if group.showInHelp = false then some wr
  else
    let hdr : Option Text :=
      if group.ShortDescription ≠ [] ∧ grp.groups.length > 0 then
        let wr := wr ++ (str ".SS " ++ group.ShortDescription ++ str "\n")
        if group.LongDescription ≠ [] then
          (formatForMan wr group.LongDescription).map (fun wr => wr ++ str "\n")
        else some wr
      else some wr
    hdr.bind (fun wr => writeOptions env wr group.options)

/-- The function `writeManPageOptions` (man.go:41-108). -/
def writeManPageOptions (env : Env) (wr : Text) (grp : Group) : Option Text :=
  grp.eachGroup (visitGroup env grp) wr

/-! ## The parts of an entry, in the words of the specification -/

/-- The flag names of an entry as the specification gives them: the short form
if there is a short name, the long form if there is a long name, and the
separator between them if there are both. -/
def specFlagNames (opt : FlagOption) : Text :=
  (if opt.ShortName ≠ 0 then str "\\fB\\-" ++ fmtC opt.ShortName ++ str "\\fR" else []) ++
  (if opt.ShortName ≠ 0 ∧ opt.LongName ≠ [] then str ", " else []) ++
  (if opt.LongName ≠ [] then
    str "\\fB\\-\\-" ++ manQuote opt.LongNameWithNamespace ++ str "\\fR" else [])

/-- The value placeholder as the specification gives it: the bracketed form
when the argument is optional, else the bare value name when there is one. -/
def specValuePlaceholder (env : Env) (opt : FlagOption) : Text :=
  if opt.OptionalArgument = true then
    str " [\\fI" ++ manQuote opt.ValueName ++ str "=" ++
      manQuote (join (env.quoteV opt.OptionalValue) (str ", ")) ++ str "\\fR]"
  else if opt.ValueName ≠ [] then str " \\fI" ++ manQuote opt.ValueName ++ str "\\fR"
  else []

/-- The default annotation as the specification gives it: the explicit
defaults when there are any, else the environment key when there is one, in the
syntax of the target. -/
def specDefaultPart (env : Env) (opt : FlagOption) : Text :=
  if opt.Default ≠ [] then
    str " <default: \\fI" ++ manQuote (join (env.quoteV opt.Default) (str ", ")) ++ str "\\fR>"
  else if opt.EnvKeyWithNamespace ≠ [] then
    (if env.GOOS = str "windows" then
      str " <default: \\fI%" ++ manQuote opt.EnvKeyWithNamespace ++ str "%\\fR>"
    else str " <default: \\fI$" ++ manQuote opt.EnvKeyWithNamespace ++ str "\\fR>")
  else []

/-- The required marker as the specification gives it. -/
def specRequiredMarker (opt : FlagOption) : Text :=
  if opt.Required = true then str " (\\fIrequired\\fR)" else []

/-- The description of an entry as the specification gives it: the translated
description and a line break, when the description is not empty. -/
def specDescription (opt : FlagOption) : Option Text :=
  if opt.Description ≠ [] then
    (formatForMan [] opt.Description).map (fun d => d ++ str "\n")
  else some []

/-- An environment for examples: a POSIX target, and values quoted by `quoteV`
between double quotes. -/
def exampleEnv : Env where
  GOOS := str "linux"
  quoteV := List.map (fun v => str "\"" ++ v ++ str "\"")

/-- An option with nothing set, shown in help: a base for examples. -/
def exampleOption : FlagOption where
  Description := []
  ShortName := 0
  LongName := []
  Default := []
  OptionalArgument := false
  OptionalValue := []
  Required := false
  ValueName := []
  LongNameWithNamespace := []
  EnvKeyWithNamespace := []
  showInHelp := true

/-- The header of a visited group as the specification gives it: the `.SS` line
with the short description, then the translated long description and a line break
when there is one. -/
def specGroupHeader (group : Group) : Option Text :=
  if group.LongDescription ≠ [] then
    (formatForMan [] group.LongDescription).map (fun ld =>
      str ".SS " ++ group.ShortDescription ++ str "\n" ++ ld ++ str "\n")
  else some (str ".SS " ++ group.ShortDescription ++ str "\n")

/-- The option `-v, --verbose` with a description, for examples. -/
def verboseOption : FlagOption :=
  { exampleOption with
    ShortName := 118, LongName := str "verbose", LongNameWithNamespace := str "verbose",
    Description := str "Be `loud'" }

/-- A hidden option `--debug`, for examples: `showInHelp()` is false. -/
def hiddenOption : FlagOption :=
  { exampleOption with
    LongName := str "debug", LongNameWithNamespace := str "debug", showInHelp := false }

/-- The option `--port` without a description, for examples. -/
def portOption : FlagOption :=
  { exampleOption with
    LongName := str "port", LongNameWithNamespace := str "port", ValueName := str "PORT" }

/-- A leaf group with a short and a long description, for examples. -/
def exampleLeaf : Group where
  ShortDescription := str "Network"
  LongDescription := str "Use `net'"
  options := [hiddenOption, portOption]
  groups := []
  showInHelp := true

/-- A group with one sub-group, for examples. -/
def exampleRoot : Group where
  ShortDescription := str "Application Options"
  LongDescription := []
  options := [verboseOption, hiddenOption, portOption]
  groups := [exampleLeaf]
  showInHelp := true

/-- The inverse scan in the words of the specification: every pair of adjacent
backslashes is replaced by one backslash, scanning from left to right. -/
def collapseBackslashes : Text → Text
  | [] => []
  | [c] => [c]
  | c :: d :: rest =>
    if c = backslash ∧ d = backslash then backslash :: collapseBackslashes rest
    else c :: collapseBackslashes (d :: rest)

/-! ## Commands

`Command` is declared in another file of the package.  Its `parent` link is
followed only to read names, so it is the chain of the names it leads through. -/

/-- What `r1.parent` holds in the ancestry loop: a `*Command`, of which the loop
reads `Name` and `parent`, or something that is not a `*Command` (the parser for
the root command). -/
inductive Parent where
  | other : Parent
  | command (Name : Text) (parent : Parent) : Parent

/-- The names of the commands a `parent` chain leads through, nearest first; the
last one is the root command. -/
def Parent.names : Parent → List Text
  | .other => []
  | .command n p => n :: p.names

/-- The fields and method results of a `*Command` that `man.go` reads.  In the
package the descriptions and the parent of a command are those of its embedded
group; they are fields of their own here, which admits that case. -/
structure Command where
  Name : Text
  ShortDescription : Text
  LongDescription : Text
  Aliases : List Text
  Hidden : Bool
  /-- The embedded `*Group` of the command. -/
  Group : Group
  /-- The result of `command.data.(Usage)`: `some u` when the data has a method
  `Usage()`, which returns `u`; `none` when it has not. -/
  dataUsage : Option Text
  /-- The result of `command.hasHelpOptions()`. -/
  hasHelpOptions : Bool
  parent : Parent
  /-- The result of `command.sortedVisibleCommands()`. -/
  sortedVisibleCommands : List Command

/-- The long description block of `writeManPageCommand` (man.go:134-148). -/
def writeLongDescription (wr : Text) (command : Command) : Option Text :=
  if command.LongDescription.length > 0 then
    let wr := wr ++ str "\n"
    let cmdstart := str "The " ++ manQuote command.Name ++ str " command"
    if cmdstart.isPrefixOf command.LongDescription = true then
      let wr := wr ++ (str "The \\fI" ++ manQuote command.Name ++ str "\\fP command")
      (formatForMan wr (command.LongDescription.drop cmdstart.length)).map
        (fun wr => wr ++ str "\n")
    else
      (formatForMan wr command.LongDescription).map (fun wr => wr ++ str "\n")
  else some wr

/-- The variable `usage` of `writeManPageCommand` (man.go:150-155). -/
def commandUsage (command : Command) : Text :=
  match command.dataUsage with
  | some us => us
  | none =>
    if command.hasHelpOptions = true then str "[" ++ command.Name ++ str "-OPTIONS]" else []

/-- The ancestry loop of `writeManPageCommand` (man.go:160-169): `parent` is
`r1.parent`, `pre2` what the builder holds. -/
def ancestryLoop : Parent → Text → Text
  | .other, pre2 => pre2
  | .command n p, pre2 => ancestryLoop p (pre2 ++ n ++ str " ")

/-- The value of `pre2.String()` at man.go:198: the builder after the ancestry
loop and `pre2.WriteString(command.Name)` (man.go:158-177). -/
def commandBreadcrumb (command : Command) : Text :=
  ancestryLoop command.parent [] ++ command.Name

/-- Lines 131-205 of `writeManPageCommand`: everything before the call of
`writeManPageSubcommands`. -/
def writeManPageCommandBody (env : Env) (wr : Text) (name : Text) (command : Command) :
    Option Text :=
  let wr := wr ++ (str ".SS " ++ name ++ str "\n")
  let wr := wr ++ command.ShortDescription ++ str "\n"
  (writeLongDescription wr command).bind fun wr =>
  let usage := commandUsage command
  let pre2 := commandBreadcrumb command
  let wr :=
    if usage.length > 0 then
      wr ++ (str "\n\\fBUsage\\fP: " ++ manQuote pre2 ++ str " " ++ manQuote usage ++
        str "\n.TP\n")
    else wr
  let wr :=
    if command.Aliases.length > 0 then
      wr ++ (str "\n\\fBAliases\\fP: " ++ manQuote (join command.Aliases (str ", ")) ++
        str "\n\n")
    else wr
  writeManPageOptions env wr command.Group

mutual
/-- The function `writeManPageCommand` (man.go:130-207); `root` is passed on and
not read. -/
def writeManPageCommand (env : Env) (wr : Text) (name : Text) (root : Command) :
    Command → Option Text
  | ⟨n, sd, ld, al, hid, g, du, hh, par, subs⟩ =>
    (writeManPageCommandBody env wr name ⟨n, sd, ld, al, hid, g, du, hh, par, subs⟩).bind
      fun wr => writeSubcommands env wr name ⟨n, sd, ld, al, hid, g, du, hh, par, subs⟩ subs
/-- The loop of `writeManPageSubcommands` (man.go:113-127) over the commands of
`subs` still to come. -/
def writeSubcommands (env : Env) (wr : Text) (name : Text) (root : Command) :
    List Command → Option Text
  | [] => some wr
  | c :: cs =>
    if c.Hidden = true then writeSubcommands env wr name root cs
    else
      let nn := if name.length ≠ 0 then name ++ str " " ++ c.Name else c.Name
      (writeManPageCommand env wr nn root c).bind
        fun wr => writeSubcommands env wr name root cs
end

/-- The function `writeManPageSubcommands` (man.go:110-128). -/
def writeManPageSubcommands (env : Env) (wr : Text) (name : Text) (root : Command) :
    Option Text :=
  writeSubcommands env wr name root root.sortedVisibleCommands

/-- A group without options or sub-groups, for examples. -/
def emptyGroup : Group where
  ShortDescription := []
  LongDescription := []
  options := []
  groups := []
  showInHelp := false

/-- A command with nothing set, directly below a root command `app`: a base for
examples. -/
def exampleCommand : Command where
  Name := []
  ShortDescription := []
  LongDescription := []
  Aliases := []
  Hidden := false
  Group := emptyGroup
  dataUsage := none
  hasHelpOptions := false
  parent := .command (str "app") .other
  sortedVisibleCommands := []

/-- The command `status` of the specification, with the option `-v, --verbose`. -/
def statusCommand : Command :=
  { exampleCommand with
    Name := str "status", ShortDescription := str "Show status",
    LongDescription := str "The status command does X", hasHelpOptions := true,
    Group :=
      { emptyGroup with
        ShortDescription := str "Show status",
        LongDescription := str "The status command does X",
        options := [verboseOption], showInHelp := true } }

/-- The usage line of a command (man.go:197-199), written when `usage` is not
empty. -/
def commandUsageLine (command : Command) : Text :=
  if (commandUsage command).length > 0 then
    str "\n\\fBUsage\\fP: " ++ manQuote (commandBreadcrumb command) ++ str " " ++
      manQuote (commandUsage command) ++ str "\n.TP\n"
  else []

/-- The aliases line of a command (man.go:201-203), written when there are
aliases. -/
def commandAliasesLine (command : Command) : Text :=
  if command.Aliases.length > 0 then
    str "\n\\fBAliases\\fP: " ++ manQuote (join command.Aliases (str ", ")) ++ str "\n\n"
  else []

/-- The value of `nn` in the loop of `writeManPageSubcommands` (man.go:114-124). -/
def qualifiedName (name : Text) (c : Command) : Text :=
  if name.length ≠ 0 then name ++ str " " ++ c.Name else c.Name

/-- One call of `writeManPageCommand` made by the command walker: the `name` and
`command` arguments, and the commands the walker went through below the command
it was started on, outermost first. -/
structure Call where
  ancestors : List Command
  name : Text
  command : Command

mutual
/-- The calls of `writeManPageCommand` that one call of it leads to, itself
first, in the order in which they write (man.go:130, 206). -/
def commandCalls (ancestors : List Command) (name : Text) : Command → List Call
  | ⟨n, sd, ld, al, hid, g, du, hh, par, subs⟩ =>
    ⟨ancestors, name, ⟨n, sd, ld, al, hid, g, du, hh, par, subs⟩⟩ ::
      subcommandCalls (ancestors ++ [⟨n, sd, ld, al, hid, g, du, hh, par, subs⟩]) name subs
/-- The calls of `writeManPageCommand` that the loop of `writeManPageSubcommands`
leads to (man.go:113-127). -/
def subcommandCalls (ancestors : List Command) (name : Text) : List Command → List Call
  | [] => []
  | c :: cs =>
    if c.Hidden = true then subcommandCalls ancestors name cs
    else commandCalls ancestors (qualifiedName name c) c ++ subcommandCalls ancestors name cs
end

/-- The relation `IsPath cs ancestors c`: the command `c` is reached from the list
`cs` through `ancestors`, outermost first, each command being a listed, not hidden
sub-command of the one before. -/
inductive IsPath : List Command → List Command → Command → Prop
  | direct {cs : List Command} {c : Command} : c ∈ cs → c.Hidden = false → IsPath cs [] c
  | through {cs : List Command} {a : Command} {rest : List Command} {c : Command} :
      a ∈ cs → a.Hidden = false → IsPath a.sortedVisibleCommands rest c →
      IsPath cs (a :: rest) c

/-- The qualified path of the specification: the names of the ancestors below
the root, outermost first, then the name of the command, joined by single
spaces. -/
def specQualifiedPath (ancestors : List Command) (c : Command) : Text :=
  join ((ancestors ++ [c]).map Command.Name) (str " ")

/-- The command `c` below `b` below `a` below the root, for examples. -/
def leafCommandC : Command :=
  { exampleCommand with
    Name := str "c", hasHelpOptions := true,
    Group := { emptyGroup with options := [portOption], showInHelp := true },
    parent := .command (str "b") (.command (str "a") (.command (str "app") .other)) }

/-- The command `b` below `a` below the root, for examples. -/
def middleCommandB : Command :=
  { exampleCommand with
    Name := str "b", parent := .command (str "a") (.command (str "app") .other),
    sortedVisibleCommands := [leafCommandC] }

/-- The command `a` below the root, for examples. -/
def topCommandA : Command :=
  { exampleCommand with Name := str "a", sortedVisibleCommands := [middleCommandB] }

/-- A hidden command with help options, for examples. -/
def hiddenCommand : Command :=
  { exampleCommand with
    Name := str "secret", ShortDescription := exampleLeaf.ShortDescription,
    LongDescription := exampleLeaf.LongDescription, Hidden := true, hasHelpOptions := true,
    Group := exampleLeaf }

/-- A root command `app` with the sub-commands `a` and `status`, for examples. -/
def exampleRootCommand : Command :=
  { exampleCommand with
    Name := str "app", parent := .other,
    sortedVisibleCommands := [topCommandA, statusCommand] }

/-- A command `d` below a command with the empty name, for examples. -/
def belowUnnamedCommand : Command :=
  { exampleCommand with
    Name := str "d", parent := .command [] (.command (str "app") .other) }

/-- A command with the empty name below the root, for examples. -/
def unnamedCommand : Command :=
  { exampleCommand with sortedVisibleCommands := [belowUnnamedCommand] }

/-- A root command whose only sub-command has the empty name, for examples. -/
def unnamedRootCommand : Command :=
  { exampleCommand with
    Name := str "app", parent := .other, sortedVisibleCommands := [unnamedCommand] }

/-- A command named `a\b` whose long description starts with `The a\b command`,
for examples. -/
def backslashCommand : Command :=
  { exampleCommand with
    Name := str "a\\b", LongDescription := str "The a\\b command x",
    Group := { emptyGroup with LongDescription := str "The a\\b command x" } }

/-- The command `status` with data that has a `Usage()` method, for examples. -/
def customUsageCommand : Command :=
  { statusCommand with dataUsage := some (str "[FILE...]") }

/-! ## The document assembler -/

/-- Go `strconv.ParseInt(s, 10, 64)`; `none` stands for a non-nil error: the text
is empty, has no digit after the sign, has a byte that is not a decimal digit, or
its value is outside the range of an `int64`. -/
def parseInt (s : Text) : Option Int :=
  let neg : Bool := s.head? = some 0x2D
  let digits := if s.head? = some 0x2B ∨ s.head? = some 0x2D then s.tail else s
  if digits = [] then none
  else if digits.all (fun d => decide (0x30 ≤ d ∧ d ≤ 0x39)) = false then none
  else
    let un : Nat := digits.foldl (fun n d => n * 10 + (d.toNat - 0x30)) 0
    if neg = true then (if un > 2 ^ 63 then none else some (-(un : Int)))
    else (if un ≥ 2 ^ 63 then none else some (un : Int))

/-- The fields and method results of a `*Parser` that `man.go` reads.  In the
package the name and the descriptions of a parser are those of its embedded
command; they are fields of their own here, which admits that case. -/
structure Parser where
  Name : Text
  ShortDescription : Text
  LongDescription : Text
  Usage : Text
  /-- The result of `p.visibleCommands()`. -/
  visibleCommands : List Command
  /-- The embedded root `*Command`. -/
  Command : Command

/-- What `WriteManPage` reads from the process it runs in. -/
structure Host where
  /-- The result of `time.Now()`, in seconds since the Unix epoch. -/
  now : Int
  /-- The result of `os.Getenv("SOURCE_DATE_EPOCH")`. -/
  SOURCE_DATE_EPOCH : Text
  /-- The date `t.Format("2 January 2006")` of the time `t` that is `sec` seconds
  after the Unix epoch. -/
  formatDate : Int → Text

/-- How a call of `WriteManPage` ends, with what the sink holds then. -/
inductive Run where
  | panicked (sink : Text) : Run
  | returned (sink : Text) : Run
  deriving DecidableEq

/-- Lines 224-249 of `WriteManPage`: the document for the time `t`. -/
def writeDocument (env : Env) (formatDate : Int → Text) (p : Parser) (wr : Text) (t : Int) :
    Option Text :=
  let wr := wr ++ (str ".TH " ++ manQuote p.Name ++ str " 1 \"" ++ formatDate t ++ str "\"\n")
  let wr := wr ++ str ".SH NAME" ++ str "\n"
  let wr := wr ++ (manQuote p.Name ++ str " \\- " ++ manQuote p.ShortDescription ++ str "\n")
  let wr := wr ++ str ".SH SYNOPSIS" ++ str "\n"
  let usage := p.Usage
  let usage := if usage.length = 0 then str "[OPTIONS]" else usage
  let wr := wr ++ (str "\\fB" ++ manQuote p.Name ++ str "\\fP " ++ manQuote usage ++ str "\n")
  let wr := wr ++ str ".SH DESCRIPTION" ++ str "\n"
  (formatForMan wr p.LongDescription).bind fun wr =>
  let wr := wr ++ str "\n"
  let wr := wr ++ str ".SH OPTIONS" ++ str "\n"
  (writeManPageOptions env wr p.Command.Group).bind fun wr =>
  if p.visibleCommands.length > 0 then
    let wr := wr ++ str ".SH COMMANDS" ++ str "\n"
    writeManPageSubcommands env wr [] p.Command
  else some wr

/-- The method `(p *Parser) WriteManPage` (man.go:213-250). -/
def WriteManPage (env : Env) (host : Host) (p : Parser) (wr : Text) : Option Run :=
  let t := host.now
  let source_date_epoch := host.SOURCE_DATE_EPOCH
  if source_date_epoch ≠ [] then
    match parseInt source_date_epoch with
    | none => some (Run.panicked wr)
    | some sde => (writeDocument env host.formatDate p wr sde).map Run.returned
  else (writeDocument env host.formatDate p wr t).map Run.returned

/-- A parser `app` with the root command of the examples. -/
def exampleParser : Parser where
  Name := str "app"
  ShortDescription := str "An app"
  LongDescription := str "Does `things'"
  Usage := []
  Command :=
    { exampleCommand with
      Name := str "app", ShortDescription := str "An app",
      LongDescription := str "Does `things'", parent := .other,
      Group :=
        { emptyGroup with
          ShortDescription := str "An app", LongDescription := str "Does `things'" },
      sortedVisibleCommands := [statusCommand] }
  visibleCommands := [statusCommand]

/-- A host for examples, with no override set; its clock knows two dates. -/
def exampleHost : Host where
  now := 1728000000
  SOURCE_DATE_EPOCH := []
  formatDate := fun sec => if sec < 86400 then str "1 January 1970" else str "4 October 2024"

/-- A host in the zone Asia/Tokyo, nine hours east of the example host, for
examples: the same clock and no override, and its date format puts every time
32400 seconds later in the calendar. -/
def tokyoHost : Host where
  now := 1728000000
  SOURCE_DATE_EPOCH := []
  formatDate := fun sec =>
    if sec + 32400 < 86400 then str "1 January 1970"
    else if sec + 32400 < 172800 then str "2 January 1970"
    else str "4 October 2024"

/-! ## Lemmas on the library functions -/

theorem str_backtick : str "`" = [backtick] := by decide

theorem str_apostrophe : str "'" = [apostrophe] := by decide

theorem str_two_backslashes : str "\\\\" = [backslash, backslash] := by decide

theorem indexRune_eq_none {s : Text} {c : UInt8} (h : c ∉ s) : indexRune s c = none := by
  induction s with
  | nil => rfl
  | cons x xs ih =>
    have hx : x ≠ c := fun e => h (by simp [e])
    have hxs : c ∉ xs := fun m => h (List.mem_cons_of_mem _ m)
    simp [indexRune, hx, ih hxs]

theorem indexRune_append_cons {a : Text} {c : UInt8} (t : Text) (h : c ∉ a) :
    indexRune (a ++ c :: t) c = some a.length := by
  induction a with
  | nil => simp [indexRune]
  | cons x xs ih =>
    have hx : x ≠ c := fun e => h (by simp [e])
    have hxs : c ∉ xs := fun m => h (List.mem_cons_of_mem _ m)
    simp [indexRune, hx, ih hxs]

theorem indexRune_lt {s : Text} {c : UInt8} {i : Nat} (h : indexRune s c = some i) :
    i < s.length := by
  induction s generalizing i with
  | nil => simp [indexRune] at h
  | cons x xs ih =>
    by_cases hx : x = c
    · simp [indexRune, hx] at h
      subst h
      simp
    · simp only [indexRune, hx, if_false, Option.map_eq_some'] at h
      obtain ⟨j, hj, rfl⟩ := h
      have := ih hj
      simp
      omega

theorem replaceAll_append (a b : Text) (old : UInt8) (new : Text) :
    replaceAll (a ++ b) old new = replaceAll a old new ++ replaceAll b old new := by
  induction a with
  | nil => rfl
  | cons x xs ih =>
    by_cases hx : x = old <;> simp [replaceAll, hx, ih]

theorem manQuote_nil : manQuote [] = [] := rfl

theorem manQuote_cons (c : UInt8) (s : Text) :
    manQuote (c :: s) = (if c = backslash then [backslash, backslash] else [c]) ++ manQuote s := by
  by_cases hc : c = backslash <;> simp [manQuote, replaceAll, hc, str_two_backslashes]

theorem manQuote_append (a b : Text) : manQuote (a ++ b) = manQuote a ++ manQuote b :=
  replaceAll_append a b _ _

/-! ## Lemmas on the scanning loop -/

theorem formatForManLoop_wr (n : Nat) (wr s : Text) :
    formatForManLoop n wr s = (formatForManLoop n [] s).map (wr ++ ·) := by
  induction n generalizing wr s with
  | zero => rfl
  | succ n ih =>
    simp only [formatForManLoop]
    cases indexRune s backtick with
    | none => simp
    | some idx =>
      simp only []
      cases indexRune (List.drop (idx + 1) s) apostrophe with
      | none => simp
      | some j =>
        simp only []
        rw [ih (wr ++ _ ++ _), ih ([] ++ _ ++ _)]
        simp [Option.map_map, Function.comp_def]

theorem formatForManLoop_total (n : Nat) (wr s : Text) (h : s.length < n) :
    ∃ out, formatForManLoop n wr s = some out := by
  induction n generalizing wr s with
  | zero => omega
  | succ n ih =>
    simp only [formatForManLoop]
    cases h1 : indexRune s backtick with
    | none => exact ⟨_, rfl⟩
    | some idx =>
      simp only []
      cases h2 : indexRune (List.drop (idx + 1) s) apostrophe with
      | none => exact ⟨_, rfl⟩
      | some j =>
        simp only []
        apply ih
        have := indexRune_lt h1
        simp only [List.length_drop]
        omega

theorem formatForManLoop_fuel (n m : Nat) (wr s : Text) (hn : s.length < n) (hm : s.length < m) :
    formatForManLoop n wr s = formatForManLoop m wr s := by
  induction n generalizing m wr s with
  | zero => omega
  | succ n ih =>
    cases m with
    | zero => omega
    | succ m =>
      simp only [formatForManLoop]
      cases h1 : indexRune s backtick with
      | none => rfl
      | some idx =>
        simp only []
        cases h2 : indexRune (List.drop (idx + 1) s) apostrophe with
        | none => rfl
        | some j =>
          simp only []
          have := indexRune_lt h1
          apply ih <;> simp only [List.length_drop] <;> omega

theorem formatForMan_total (wr s : Text) : ∃ out, formatForMan wr s = some out :=
  formatForManLoop_total _ wr s (Nat.lt_succ_self _)

theorem formatForMan_wr (wr s : Text) :
    formatForMan wr s = (formatForMan [] s).map (wr ++ ·) :=
  formatForManLoop_wr _ wr s

theorem formatForMan_no_backtick (wr s : Text) (h : backtick ∉ s) :
    formatForMan wr s = some (wr ++ manQuote s) := by
  simp [formatForMan, formatForManLoop, indexRune_eq_none h]

theorem formatForMan_closed (wr a b rest : Text) (ha : backtick ∉ a) (hb : apostrophe ∉ b) :
    formatForMan wr (a ++ backtick :: (b ++ apostrophe :: rest)) =
      formatForMan (wr ++ manQuote a ++ (str "\\fB" ++ manQuote b ++ str "\\fP")) rest := by
  have h1 : List.drop (a.length + 1) (a ++ backtick :: (b ++ apostrophe :: rest))
      = b ++ apostrophe :: rest := by
    rw [List.drop_append_eq_append_drop]; simp
  have h2 : List.drop (b.length + 1) (b ++ apostrophe :: rest) = rest := by
    rw [List.drop_append_eq_append_drop]; simp
  have t1 : List.take a.length (a ++ backtick :: (b ++ apostrophe :: rest)) = a := by simp
  have t2 : List.take b.length (b ++ apostrophe :: rest) = b := by simp
  have key : formatForManLoop ((a ++ backtick :: (b ++ apostrophe :: rest)).length + 1) wr
      (a ++ backtick :: (b ++ apostrophe :: rest)) =
      formatForManLoop (a ++ backtick :: (b ++ apostrophe :: rest)).length
        (wr ++ manQuote a ++ (str "\\fB" ++ manQuote b ++ str "\\fP")) rest := by
    rw [formatForManLoop]
    simp only [indexRune_append_cons _ ha, h1, indexRune_append_cons _ hb, h2, t1, t2]
  unfold formatForMan
  rw [key]
  apply formatForManLoop_fuel
  · simp; omega
  · simp

theorem formatForMan_open (wr a b : Text) (ha : backtick ∉ a) (hb : apostrophe ∉ b) :
    formatForMan wr (a ++ backtick :: b) = some (wr ++ manQuote a ++ manQuote b) := by
  simp only [formatForMan, formatForManLoop, indexRune_append_cons _ ha]
  have h1 : List.drop (a.length + 1) (a ++ backtick :: b) = b := by
    rw [List.drop_append_eq_append_drop]; simp
  have t1 : List.take a.length (a ++ backtick :: b) = a := by simp
  simp only [h1, t1, indexRune_eq_none hb]

/-! ## Lemmas on the option renderer -/

theorem ite_append_right (c : Prop) [Decidable c] (wr x : Text) :
    (if c then wr ++ x else wr) = wr ++ (if c then x else []) := by
  split <;> simp

theorem str_TP : str ".TP" ++ str "\n" = str ".TP\n" := by decide

theorem str_fP : str "\\fP" ++ str "\n" = str "\\fP\n" := by decide

theorem specFlagNames_eq (opt : FlagOption) :
    (if opt.ShortName ≠ 0 then str "\\fB\\-" ++ fmtC opt.ShortName ++ str "\\fR" else []) ++
      (if opt.LongName.length ≠ 0 then
        (if opt.ShortName ≠ 0 then str ", " else []) ++
          (str "\\fB\\-\\-" ++ manQuote opt.LongNameWithNamespace ++ str "\\fR")
      else []) = specFlagNames opt := by
  unfold specFlagNames
  by_cases h1 : opt.ShortName = 0 <;> by_cases h2 : opt.LongName = [] <;> simp [h1, h2]

theorem specValuePlaceholder_eq (env : Env) (opt : FlagOption) :
    (if opt.ValueName.length ≠ 0 ∨ opt.OptionalArgument = true then
      (if opt.OptionalArgument = true then
        str " [\\fI" ++ manQuote opt.ValueName ++ str "=" ++
          manQuote (join (env.quoteV opt.OptionalValue) (str ", ")) ++ str "\\fR]"
      else str " \\fI" ++ manQuote opt.ValueName ++ str "\\fR")
    else []) = specValuePlaceholder env opt := by
  unfold specValuePlaceholder
  by_cases h1 : opt.ValueName = [] <;> by_cases h2 : opt.OptionalArgument = true <;>
    simp [h1, h2]

theorem specDefaultPart_eq (env : Env) (opt : FlagOption) :
    (if opt.Default.length ≠ 0 then
      str " <default: \\fI" ++ manQuote (join (env.quoteV opt.Default) (str ", ")) ++ str "\\fR>"
    else if opt.EnvKeyWithNamespace.length ≠ 0 then
      (if env.GOOS = str "windows" then
        str " <default: \\fI%" ++ manQuote opt.EnvKeyWithNamespace ++ str "%\\fR>"
      else str " <default: \\fI$" ++ manQuote opt.EnvKeyWithNamespace ++ str "\\fR>")
    else []) = specDefaultPart env opt := by
  unfold specDefaultPart
  by_cases h1 : opt.Default = [] <;> by_cases h2 : opt.EnvKeyWithNamespace = [] <;>
    simp [h1, h2]

theorem writeOption_eq_parts (env : Env) (wr : Text) (opt : FlagOption) :
    writeOption env wr opt = (specDescription opt).map (fun d =>
      wr ++ (str ".TP\n" ++ str "\\fB" ++ specFlagNames opt ++ specValuePlaceholder env opt ++
        specDefaultPart env opt ++ specRequiredMarker opt ++ str "\\fP\n" ++ d)) := by
  unfold writeOption
  lift_lets
  extract_lets w1 w2 w3 w4 w5 w6 w7 w8 w9
  have e2 : w2 = wr ++ (str ".TP\n" ++ str "\\fB") := by
    simp only [w2, w1, List.append_assoc, str_TP]
  have e5 : w5 = w2 ++ specFlagNames opt := by
    rw [← specFlagNames_eq]
    simp only [w5, w4, w3]
    split_ifs <;> simp
  have e6 : w6 = w5 ++ specValuePlaceholder env opt := by
    rw [← specValuePlaceholder_eq]
    simp only [w6]
    split_ifs <;> simp
  have e7 : w7 = w6 ++ specDefaultPart env opt := by
    rw [← specDefaultPart_eq]
    simp only [w7]
    split_ifs <;> simp
  have e8 : w8 = w7 ++ specRequiredMarker opt := ite_append_right _ _ _
  have e9 : w9 = wr ++ (str ".TP\n" ++ str "\\fB" ++ specFlagNames opt ++
      specValuePlaceholder env opt ++ specDefaultPart env opt ++ specRequiredMarker opt ++
      str "\\fP\n") := by
    simp only [w9, e8, e7, e6, e5, e2, List.append_assoc, str_fP]
  rw [e9]
  unfold specDescription
  by_cases hd : opt.Description = []
  · simp [hd]
  · simp only [List.length_eq_zero, ne_eq, hd, not_false_eq_true, if_true]
    rw [formatForMan_wr]
    simp [Option.map_map, Function.comp_def]

theorem specDescription_total (opt : FlagOption) : ∃ d, specDescription opt = some d := by
  unfold specDescription
  split
  · obtain ⟨out, h⟩ := formatForMan_total [] opt.Description
    exact ⟨_, by rw [h]; rfl⟩
  · exact ⟨_, rfl⟩

theorem writeOption_parts (env : Env) (wr : Text) (opt : FlagOption) :
    ∃ d, specDescription opt = some d ∧
      writeOption env wr opt = some (wr ++ (str ".TP\n" ++ str "\\fB" ++ specFlagNames opt ++
        specValuePlaceholder env opt ++ specDefaultPart env opt ++
        specRequiredMarker opt ++ str "\\fP\n" ++ d)) := by
  obtain ⟨d, hd⟩ := specDescription_total opt
  exact ⟨d, hd, by rw [writeOption_eq_parts, hd]; rfl⟩

theorem writeOption_wr (env : Env) (wr : Text) (opt : FlagOption) :
    writeOption env wr opt = (writeOption env [] opt).map (wr ++ ·) := by
  rw [writeOption_eq_parts env wr, writeOption_eq_parts env []]
  simp [Option.map_map, Function.comp_def]

theorem writeOption_entry (env : Env) (opt : FlagOption) :
    ∃ e, writeOption env [] opt = some e ∧ ∃ r, e = str ".TP\n" ++ r := by
  obtain ⟨d, -, h⟩ := writeOption_parts env [] opt
  exact ⟨_, h, _, by simp only [List.nil_append, List.append_assoc]; rfl⟩

/-! ## Lemmas on the group walker -/

theorem writeOptions_filter (env : Env) (wr : Text) (opts : List FlagOption) :
    writeOptions env wr (opts.filter (fun o => o.showInHelp)) = writeOptions env wr opts := by
  induction opts generalizing wr with
  | nil => rfl
  | cons o os ih =>
    cases hv : o.showInHelp with
    | false => simp [List.filter, hv, writeOptions, ih]
    | true =>
      simp only [List.filter, hv, writeOptions]
      cases writeOption env wr o with
      | none => rfl
      | some w => simp [ih]

theorem writeOptions_entries (env : Env) (wr : Text) (opts : List FlagOption) :
    ∃ entries : List Text,
      List.Forall₂ (fun o e => writeOption env [] o = some e ∧ ∃ r, e = str ".TP\n" ++ r)
        (opts.filter (fun o => o.showInHelp)) entries ∧
      writeOptions env wr opts = some (wr ++ entries.flatten) := by
  induction opts generalizing wr with
  | nil => exact ⟨[], by simp, by simp [writeOptions]⟩
  | cons o os ih =>
    cases hv : o.showInHelp with
    | false =>
      obtain ⟨es, h1, h2⟩ := ih wr
      exact ⟨es, by simpa [List.filter, hv] using h1, by simp [writeOptions, hv, h2]⟩
    | true =>
      obtain ⟨e, he, hr⟩ := writeOption_entry env o
      obtain ⟨es, h1, h2⟩ := ih (wr ++ e)
      refine ⟨e :: es, ?_, ?_⟩
      · simp only [List.filter, hv]
        exact List.Forall₂.cons ⟨he, hr⟩ h1
      · simp [writeOptions, hv, writeOption_wr env wr o, he, h2]

theorem writeOptions_wr (env : Env) (wr : Text) (opts : List FlagOption) :
    writeOptions env wr opts = (writeOptions env [] opts).map (wr ++ ·) := by
  induction opts generalizing wr with
  | nil => simp [writeOptions]
  | cons o os ih =>
    cases hv : o.showInHelp with
    | false =>
      simp only [writeOptions, hv, if_true]
      exact ih wr
    | true =>
      obtain ⟨e, he, -⟩ := writeOption_entry env o
      simp only [writeOptions, hv, Bool.true_eq_false, if_false, writeOption_wr env wr o, he,
        Option.map_some', Option.some_bind, List.nil_append]
      rw [ih (wr ++ e), ih e]
      cases writeOptions env [] os <;> simp

theorem specGroupHeader_total (group : Group) : ∃ h, specGroupHeader group = some h := by
  unfold specGroupHeader
  split
  · obtain ⟨out, h⟩ := formatForMan_total [] group.LongDescription
    exact ⟨_, by rw [h]; rfl⟩
  · exact ⟨_, rfl⟩

theorem visitGroup_visible (env : Env) (grp : Group) (wr : Text) (group : Group)
    (hv : group.showInHelp = true) (h : Text) (hh : specGroupHeader group = some h) :
    visitGroup env grp wr group =
      writeOptions env
        (wr ++ (if group.ShortDescription ≠ [] ∧ grp.groups.length > 0 then h else []))
        group.options := by
  unfold visitGroup
  unfold specGroupHeader at hh
  rw [if_neg (by simp [hv])]
  dsimp only
  by_cases hc : group.ShortDescription ≠ [] ∧ grp.groups.length > 0
  · rw [if_pos hc, if_pos hc]
    by_cases hl : group.LongDescription ≠ []
    · rw [if_pos hl] at hh ⊢
      rw [formatForMan_wr]
      cases hf : formatForMan [] group.LongDescription with
      | none => simp [hf] at hh
      | some ld =>
        simp only [hf, Option.map_some', Option.some.injEq] at hh
        subst hh
        simp
    · rw [if_neg hl] at hh ⊢
      simp only [Option.some.injEq] at hh
      subst hh
      simp
  · rw [if_neg hc, if_neg hc]
    simp

theorem preorder_eq (g : Group) : g.preorder = g :: preorderList g.groups := by
  cases g
  simp [Group.preorder]

theorem ne_nil_of_mem_preorderList {g : Group} {gs : List Group} (h : g ∈ preorderList gs) :
    gs ≠ [] := by
  intro e
  subst e
  simp [preorderList] at h

/-! ## The inline markup translator and the escaper -/

/-- C1: for `a` without a backtick and `b` without an apostrophe, `formatForMan`
writes for ``a ++ "`" ++ b ++ "'" ++ rest`` the escaped `a`, then the escaped `b`
between `\fB` and `\fP`, then exactly what it writes for `rest` (which it does
write: the loop ends); the input `` `foo' `` gives `\fBfoo\fP` and nothing more. -/
theorem formatForMan_bold_span (wr a b rest : Text)
    (ha : backtick ∉ a) (hb : apostrophe ∉ b) :
    (∃ r, formatForMan [] rest = some r ∧
      formatForMan wr (a ++ str "`" ++ b ++ str "'" ++ rest) =
        some (wr ++ (manQuote a ++ str "\\fB" ++ manQuote b ++ str "\\fP" ++ r))) ∧
    formatForMan [] (str "`foo'") = some (str "\\fBfoo\\fP") := by
  refine ⟨?_, by decide⟩
  obtain ⟨r, hr⟩ := formatForMan_total [] rest
  refine ⟨r, hr, ?_⟩
  have e : a ++ str "`" ++ b ++ str "'" ++ rest = a ++ backtick :: (b ++ apostrophe :: rest) := by
    simp [str_backtick, str_apostrophe]
  rw [e, formatForMan_closed wr a b rest ha hb, formatForMan_wr, hr]
  simp

/-- Witness of C1: the text ``see `a\b' and `c'`` (one backslash in the first span). -/
theorem formatForMan_bold_span_witness :
    (∃ r, formatForMan [] (str " and `c'") = some r ∧
      formatForMan [] (str "see " ++ str "`" ++ str "a\\b" ++ str "'" ++ str " and `c'") =
        some ([] ++ (manQuote (str "see ") ++ str "\\fB" ++ manQuote (str "a\\b") ++ str "\\fP" ++ r))) ∧
    formatForMan [] (str "`foo'") = some (str "\\fBfoo\\fP") :=
  formatForMan_bold_span [] (str "see ") (str "a\\b") (str " and `c'") (by decide) (by decide)

/-- C2: for a text without a backtick `formatForMan` writes exactly `manQuote s`;
no bold-run marker is added. -/
theorem formatForMan_without_backtick (wr s : Text) (h : backtick ∉ s) :
    formatForMan wr s = some (wr ++ manQuote s) :=
  formatForMan_no_backtick wr s h

/-- Witness of C2: a text with an apostrophe and a backslash but no backtick. -/
theorem formatForMan_without_backtick_witness :
    formatForMan [] (str "it's a\\b") = some ([] ++ manQuote (str "it's a\\b")) :=
  formatForMan_without_backtick [] (str "it's a\\b") (by decide)

/-- C3 as stated fails: for the unterminated `` `foo `` the code writes `foo`,
without the backtick, while the escaped literal text is `` `foo ``. -/
theorem formatForMan_unterminated_counterexample :
    backtick ∉ str "" ∧ apostrophe ∉ str "foo" ∧
    formatForMan [] (str "" ++ str "`" ++ str "foo") = some (str "foo") ∧
    manQuote (str "" ++ str "`" ++ str "foo") = str "`foo" ∧
    formatForMan [] (str "" ++ str "`" ++ str "foo") ≠
      some (manQuote (str "" ++ str "`" ++ str "foo")) := by
  decide

/-- C3 amended: for `a` without a backtick and `b` without an apostrophe,
`formatForMan` on the unterminated ``a ++ "`" ++ b`` writes the escaped `a`
followed by the escaped `b`, that is `manQuote (a ++ b)`: no bold run, and the
lone backtick is not written. -/
theorem formatForMan_unterminated (wr a b : Text)
    (ha : backtick ∉ a) (hb : apostrophe ∉ b) :
    formatForMan wr (a ++ str "`" ++ b) = some (wr ++ manQuote (a ++ b)) := by
  have e : a ++ str "`" ++ b = a ++ backtick :: b := by simp [str_backtick]
  rw [e, formatForMan_open wr a b ha hb, manQuote_append]
  simp

/-- Witness of C3 amended: the text ``a\ `b`c`` (two backticks, no apostrophe). -/
theorem formatForMan_unterminated_witness :
    formatForMan [] (str "a\\ " ++ str "`" ++ str "b`c") =
      some ([] ++ manQuote (str "a\\ " ++ str "b`c")) :=
  formatForMan_unterminated [] (str "a\\ ") (str "b`c") (by decide) (by decide)

/-- C4: `manQuote s` is `s` with every backslash replaced by two backslashes and
every other byte (newline included) copied in place; so the other bytes are the
same and in the same order, the number of backslashes doubles and the length
grows by the number of backslashes of `s`. -/
theorem manQuote_doubles_backslash (s : Text) :
    manQuote s = s.flatMap (fun c => if c = backslash then [backslash, backslash] else [c]) ∧
    (manQuote s).filter (fun c => c ≠ backslash) = s.filter (fun c => c ≠ backslash) ∧
    (manQuote s).count backslash = 2 * s.count backslash ∧
    (manQuote s).length = s.length + s.count backslash := by
  induction s with
  | nil => simp [manQuote_nil]
  | cons c cs ih =>
    obtain ⟨h1, h2, h3, h4⟩ := ih
    rw [manQuote_cons]
    by_cases hc : c = backslash
    · subst hc
      refine ⟨by simp [h1], by simpa using h2, ?_, ?_⟩
      · simp [h3]; omega
      · simp [h4]; omega
    · refine ⟨by simp [hc, h1], by simpa [hc] using h2, ?_, ?_⟩
      · simp [hc, h3, List.count_cons]
      · simp [hc, h4, List.count_cons]; omega

/-! ## The option renderer -/

/-- C5: the flag names of an entry are the short form `\fB\-<char>\fR` iff
`ShortName` is not zero, then the long form `\fB\-\-<escaped namespaced name>\fR`
iff `LongName` is not empty, with `, ` between them iff both are there.  With
short name `v` and long name `verbose` the entry has the short form, `, `, the
long form; with the long name alone it has no separator. -/
theorem writeOption_flag_names (env : Env) (wr : Text) (opt : FlagOption) :
    (∃ d, specDescription opt = some d ∧
      writeOption env wr opt = some (wr ++ (str ".TP\n" ++ str "\\fB" ++
        ((if opt.ShortName ≠ 0 then str "\\fB\\-" ++ fmtC opt.ShortName ++ str "\\fR" else []) ++
         (if opt.ShortName ≠ 0 ∧ opt.LongName ≠ [] then str ", " else []) ++
         (if opt.LongName ≠ [] then
            str "\\fB\\-\\-" ++ manQuote opt.LongNameWithNamespace ++ str "\\fR" else [])) ++
        specValuePlaceholder env opt ++ specDefaultPart env opt ++
        specRequiredMarker opt ++ str "\\fP\n" ++ d))) ∧
    writeOption exampleEnv []
      { exampleOption with
        ShortName := 118, LongName := str "verbose", LongNameWithNamespace := str "verbose" } =
      some (str ".TP\n\\fB\\fB\\-v\\fR, \\fB\\-\\-verbose\\fR\\fP\n") ∧
    writeOption exampleEnv []
      { exampleOption with LongName := str "verbose", LongNameWithNamespace := str "verbose" } =
      some (str ".TP\n\\fB\\fB\\-\\-verbose\\fR\\fP\n") :=
  ⟨writeOption_parts env wr opt, by decide, by decide⟩

/-- C6: the annotation of an entry is the explicit defaults, quoted, joined by
`, ` and escaped, whenever `Default` is not empty, whatever the environment key
is; the environment key (`$key`, or `%key%` on Windows) only when `Default` is
empty and the key is not; and nothing when both are empty.  With defaults `1`,
`2` and an environment key, only the defaults are written. -/
theorem writeOption_default_part (env : Env) (wr : Text) (opt : FlagOption) :
    (∃ d, specDescription opt = some d ∧
      writeOption env wr opt = some (wr ++ (str ".TP\n" ++ str "\\fB" ++ specFlagNames opt ++
        specValuePlaceholder env opt ++
        (if opt.Default ≠ [] then
          str " <default: \\fI" ++ manQuote (join (env.quoteV opt.Default) (str ", ")) ++
            str "\\fR>"
        else if opt.EnvKeyWithNamespace ≠ [] then
          (if env.GOOS = str "windows" then
            str " <default: \\fI%" ++ manQuote opt.EnvKeyWithNamespace ++ str "%\\fR>"
          else str " <default: \\fI$" ++ manQuote opt.EnvKeyWithNamespace ++ str "\\fR>")
        else []) ++
        specRequiredMarker opt ++ str "\\fP\n" ++ d))) ∧
    writeOption exampleEnv []
      { exampleOption with
        LongName := str "n", LongNameWithNamespace := str "n",
        Default := [str "1", str "2"], EnvKeyWithNamespace := str "KEY" } =
      some (str ".TP\n\\fB\\fB\\-\\-n\\fR <default: \\fI\"1\", \"2\"\\fR>\\fP\n") ∧
    writeOption exampleEnv []
      { exampleOption with
        LongName := str "n", LongNameWithNamespace := str "n",
        EnvKeyWithNamespace := str "KEY" } =
      some (str ".TP\n\\fB\\fB\\-\\-n\\fR <default: \\fI$KEY\\fR>\\fP\n") :=
  ⟨writeOption_parts env wr opt, by decide, by decide⟩

/-- C7: the value placeholder of an entry is the bracketed
`[<ValueName>=<quoted optional values joined by ", ">]` (in `\fI`...`\fR`, both
escaped) whenever `OptionalArgument` is set, with an empty value name or not;
otherwise the bare `<ValueName>` when it is not empty; otherwise nothing.  With
both a value name and the flag set, the bracketed form is written. -/
theorem writeOption_value_placeholder (env : Env) (wr : Text) (opt : FlagOption) :
    (∃ d, specDescription opt = some d ∧
      writeOption env wr opt = some (wr ++ (str ".TP\n" ++ str "\\fB" ++ specFlagNames opt ++
        (if opt.OptionalArgument = true then
          str " [\\fI" ++ manQuote opt.ValueName ++ str "=" ++
            manQuote (join (env.quoteV opt.OptionalValue) (str ", ")) ++ str "\\fR]"
        else if opt.ValueName ≠ [] then str " \\fI" ++ manQuote opt.ValueName ++ str "\\fR"
        else []) ++
        specDefaultPart env opt ++ specRequiredMarker opt ++ str "\\fP\n" ++ d))) ∧
    writeOption exampleEnv []
      { exampleOption with
        LongName := str "o", LongNameWithNamespace := str "o", ValueName := str "FILE",
        OptionalArgument := true, OptionalValue := [str "a", str "b"] } =
      some (str ".TP\n\\fB\\fB\\-\\-o\\fR [\\fIFILE=\"a\", \"b\"\\fR]\\fP\n") ∧
    writeOption exampleEnv []
      { exampleOption with
        LongName := str "o", LongNameWithNamespace := str "o",
        OptionalArgument := true, OptionalValue := [str "a"] } =
      some (str ".TP\n\\fB\\fB\\-\\-o\\fR [\\fI=\"a\"\\fR]\\fP\n") ∧
    writeOption exampleEnv []
      { exampleOption with
        LongName := str "o", LongNameWithNamespace := str "o", ValueName := str "FILE" } =
      some (str ".TP\n\\fB\\fB\\-\\-o\\fR \\fIFILE\\fR\\fP\n") :=
  ⟨writeOption_parts env wr opt, by decide, by decide, by decide⟩

/-- C8: for a required option with no default and no environment key the
header is `.TP`, line break, `\fB`, the flag names, the placeholder if any,
` (\fIrequired\fR)`, `\fP`, line break, with no annotation, and the description
follows; and for every option the marker is written iff `Required` is set. -/
theorem writeOption_required_marker (env : Env) (wr : Text) (opt : FlagOption)
    (hr : opt.Required = true) (hdef : opt.Default = []) (henv : opt.EnvKeyWithNamespace = []) :
    (∃ d, specDescription opt = some d ∧
      writeOption env wr opt = some (wr ++ (str ".TP\n" ++ str "\\fB" ++ specFlagNames opt ++
        specValuePlaceholder env opt ++ str " (\\fIrequired\\fR)" ++ str "\\fP\n" ++ d))) ∧
    (∀ o : FlagOption, ∃ d, specDescription o = some d ∧
      writeOption env wr o = some (wr ++ (str ".TP\n" ++ str "\\fB" ++ specFlagNames o ++
        specValuePlaceholder env o ++ specDefaultPart env o ++
        (if o.Required = true then str " (\\fIrequired\\fR)" else []) ++ str "\\fP\n" ++ d))) := by
  refine ⟨?_, fun o => writeOption_parts env wr o⟩
  obtain ⟨d, hd, h⟩ := writeOption_parts env wr opt
  refine ⟨d, hd, ?_⟩
  rw [h]
  simp [specDefaultPart, specRequiredMarker, hr, hdef, henv]

/-- Witness of C8: the required option `-p, --port PORT` with a description. -/
theorem writeOption_required_marker_witness :
    (∃ d, specDescription { exampleOption with
          ShortName := 112, LongName := str "port", LongNameWithNamespace := str "port",
          ValueName := str "PORT", Required := true, Description := str "The port" } = some d ∧
      writeOption exampleEnv [] { exampleOption with
          ShortName := 112, LongName := str "port", LongNameWithNamespace := str "port",
          ValueName := str "PORT", Required := true, Description := str "The port" } =
        some ([] ++ (str ".TP\n" ++ str "\\fB" ++ specFlagNames { exampleOption with
          ShortName := 112, LongName := str "port", LongNameWithNamespace := str "port",
          ValueName := str "PORT", Required := true, Description := str "The port" } ++
        specValuePlaceholder exampleEnv { exampleOption with
          ShortName := 112, LongName := str "port", LongNameWithNamespace := str "port",
          ValueName := str "PORT", Required := true, Description := str "The port" } ++
        str " (\\fIrequired\\fR)" ++ str "\\fP\n" ++ d))) ∧
    (∀ o : FlagOption, ∃ d, specDescription o = some d ∧
      writeOption exampleEnv [] o = some ([] ++ (str ".TP\n" ++ str "\\fB" ++ specFlagNames o ++
        specValuePlaceholder exampleEnv o ++ specDefaultPart exampleEnv o ++
        (if o.Required = true then str " (\\fIrequired\\fR)" else []) ++ str "\\fP\n" ++ d))) :=
  writeOption_required_marker exampleEnv []
    { exampleOption with
      ShortName := 112, LongName := str "port", LongNameWithNamespace := str "port",
      ValueName := str "PORT", Required := true, Description := str "The port" } rfl rfl rfl

/-! ## The group walker -/

/-- C9: for a visited visible group the visitor writes the header part (what it
writes for the group without options) and then, in the declared order, one entry
per option whose `showInHelp()` is true; every entry is what `writeOption` writes
for that option and starts with `.TP` and a line break; an option whose
`showInHelp()` is false adds nothing, so the group with the invisible options
removed gives the same output. -/
theorem visitGroup_option_entries (env : Env) (grp : Group) (wr : Text) (group : Group)
    (hv : group.showInHelp = true) :
    ∃ (hdr : Text) (entries : List Text),
      visitGroup env grp [] { group with options := [] } = some hdr ∧
      List.Forall₂ (fun o e => writeOption env [] o = some e ∧ ∃ r, e = str ".TP\n" ++ r)
        (group.options.filter (fun o => o.showInHelp)) entries ∧
      visitGroup env grp wr group = some (wr ++ hdr ++ entries.flatten) ∧
      visitGroup env grp wr
        { group with options := group.options.filter (fun o => o.showInHelp) } =
        visitGroup env grp wr group := by
  obtain ⟨h, hh⟩ := specGroupHeader_total group
  have hh0 : specGroupHeader { group with options := [] } = some h := hh
  have hhf : specGroupHeader
      { group with options := group.options.filter (fun o => o.showInHelp) } = some h := hh
  obtain ⟨es, hes, hw⟩ := writeOptions_entries env
    (wr ++ (if group.ShortDescription ≠ [] ∧ grp.groups.length > 0 then h else [])) group.options
  refine ⟨if group.ShortDescription ≠ [] ∧ grp.groups.length > 0 then h else [], es,
    ?_, hes, ?_, ?_⟩
  · have k := visitGroup_visible env grp [] { group with options := [] } hv h hh0
    rw [k]
    simp only [writeOptions, List.nil_append]
  · rw [visitGroup_visible env grp wr group hv h hh, hw]
  · have k := visitGroup_visible env grp wr
      { group with options := group.options.filter (fun o => o.showInHelp) } hv h hhf
    rw [visitGroup_visible env grp wr group hv h hh, k]
    exact writeOptions_filter env _ group.options

/-- Witness of C9: the leaf group of the example tree, which has a hidden option
before its visible one. -/
theorem visitGroup_option_entries_witness :
    ∃ (hdr : Text) (entries : List Text),
      visitGroup exampleEnv exampleRoot [] { exampleLeaf with options := [] } = some hdr ∧
      List.Forall₂
        (fun o e => writeOption exampleEnv [] o = some e ∧ ∃ r, e = str ".TP\n" ++ r)
        (exampleLeaf.options.filter (fun o => o.showInHelp)) entries ∧
      visitGroup exampleEnv exampleRoot [] exampleLeaf = some ([] ++ hdr ++ entries.flatten) ∧
      visitGroup exampleEnv exampleRoot []
        { exampleLeaf with options := exampleLeaf.options.filter (fun o => o.showInHelp) } =
        visitGroup exampleEnv exampleRoot [] exampleLeaf :=
  visitGroup_option_entries exampleEnv exampleRoot [] exampleLeaf rfl

/-- C10: for a visited visible group the visitor writes the header `.SS`, the
short description, a line break (and the translated long description with a line
break when it is not empty) iff the group `writeManPageOptions` was called on,
which the source calls the parent, has one or more sub-groups and the short
description of the visited group is not empty; the options follow.  A nested
visited group is in the pre-order of those sub-groups, so it gets the header iff
its short description is not empty, with or without sub-groups of its own. -/
theorem visitGroup_header (env : Env) (grp : Group) (wr : Text) (group : Group)
    (hv : group.showInHelp = true) :
    (∃ (ld opts : Text),
      (if group.LongDescription ≠ [] then
        (formatForMan [] group.LongDescription).map (fun t => t ++ str "\n")
       else some []) = some ld ∧
      writeOptions env [] group.options = some opts ∧
      visitGroup env grp wr group = some (wr ++
        (if group.ShortDescription ≠ [] ∧ grp.groups.length > 0 then
          str ".SS " ++ group.ShortDescription ++ str "\n" ++ ld else []) ++ opts) ∧
      (group ∈ preorderList grp.groups →
        visitGroup env grp wr group = some (wr ++
          (if group.ShortDescription ≠ [] then
            str ".SS " ++ group.ShortDescription ++ str "\n" ++ ld else []) ++ opts))) ∧
    grp.preorder = grp :: preorderList grp.groups ∧
    writeManPageOptions env wr grp = grp.preorder.foldlM (visitGroup env grp) wr ∧
    writeManPageOptions exampleEnv [] exampleRoot =
      some (str (".SS Application Options\n" ++
        ".TP\n\\fB\\fB\\-v\\fR, \\fB\\-\\-verbose\\fR\\fP\nBe \\fBloud\\fP\n" ++
        ".TP\n\\fB\\fB\\-\\-port\\fR \\fIPORT\\fR\\fP\n" ++
        ".SS Network\nUse \\fBnet\\fP\n" ++
        ".TP\n\\fB\\fB\\-\\-port\\fR \\fIPORT\\fR\\fP\n")) := by
  refine ⟨?_, preorder_eq grp, rfl, by decide⟩
  obtain ⟨h, hh⟩ := specGroupHeader_total group
  obtain ⟨es, -, hw⟩ := writeOptions_entries env [] group.options
  have key := visitGroup_visible env grp wr group hv h hh
  rw [writeOptions_wr, hw] at key
  simp only [List.nil_append, Option.map_some'] at key hw
  unfold specGroupHeader at hh
  by_cases hl : group.LongDescription ≠ []
  · rw [if_pos hl] at hh
    cases hf : formatForMan [] group.LongDescription with
    | none => simp [hf] at hh
    | some t =>
      simp only [hf, Option.map_some', Option.some.injEq] at hh
      subst hh
      refine ⟨t ++ str "\n", es.flatten, by rw [if_pos hl]; rfl, hw, ?_, fun hm => ?_⟩
      · rw [key]; simp only [List.append_assoc]
      · have hg : grp.groups.length > 0 := List.length_pos.2 (ne_nil_of_mem_preorderList hm)
        rw [key]; simp only [hg, and_true, List.append_assoc]
  · rw [if_neg hl] at hh
    simp only [Option.some.injEq] at hh
    subst hh
    refine ⟨[], es.flatten, by rw [if_neg hl], hw, ?_, fun hm => ?_⟩
    · rw [key]; simp only [List.append_assoc, List.append_nil]
    · have hg : grp.groups.length > 0 := List.length_pos.2 (ne_nil_of_mem_preorderList hm)
      rw [key]; simp only [hg, and_true, List.append_assoc, List.append_nil]

/-- Witness of C10: the leaf group of the example tree, visited below a group
with one sub-group; the leaf has no sub-groups of its own. -/
theorem visitGroup_header_witness :
    (∃ (ld opts : Text),
      (if exampleLeaf.LongDescription ≠ [] then
        (formatForMan [] exampleLeaf.LongDescription).map (fun t => t ++ str "\n")
       else some []) = some ld ∧
      writeOptions exampleEnv [] exampleLeaf.options = some opts ∧
      visitGroup exampleEnv exampleRoot [] exampleLeaf = some ([] ++
        (if exampleLeaf.ShortDescription ≠ [] ∧ exampleRoot.groups.length > 0 then
          str ".SS " ++ exampleLeaf.ShortDescription ++ str "\n" ++ ld else []) ++ opts) ∧
      (exampleLeaf ∈ preorderList exampleRoot.groups →
        visitGroup exampleEnv exampleRoot [] exampleLeaf = some ([] ++
          (if exampleLeaf.ShortDescription ≠ [] then
            str ".SS " ++ exampleLeaf.ShortDescription ++ str "\n" ++ ld else []) ++ opts))) ∧
    exampleRoot.preorder = exampleRoot :: preorderList exampleRoot.groups ∧
    writeManPageOptions exampleEnv [] exampleRoot =
      exampleRoot.preorder.foldlM (visitGroup exampleEnv exampleRoot) [] ∧
    writeManPageOptions exampleEnv [] exampleRoot =
      some (str (".SS Application Options\n" ++
        ".TP\n\\fB\\fB\\-v\\fR, \\fB\\-\\-verbose\\fR\\fP\nBe \\fBloud\\fP\n" ++
        ".TP\n\\fB\\fB\\-\\-port\\fR \\fIPORT\\fR\\fP\n" ++
        ".SS Network\nUse \\fBnet\\fP\n" ++
        ".TP\n\\fB\\fB\\-\\-port\\fR \\fIPORT\\fR\\fP\n")) :=
  visitGroup_header exampleEnv exampleRoot [] exampleLeaf rfl

/-! ## Termination of the scan and losslessness of the escaper -/

theorem indexRune_getElem {s : Text} {c : UInt8} {i : Nat} (h : indexRune s c = some i) :
    s[i]? = some c := by
  induction s generalizing i with
  | nil => simp [indexRune] at h
  | cons x xs ih =>
    by_cases hx : x = c
    · simp [indexRune, hx] at h
      subst h
      simp [hx]
    · simp only [indexRune, hx, if_false, Option.map_eq_some'] at h
      obtain ⟨j, hj, rfl⟩ := h
      simpa using ih hj

theorem collapseBackslashes_manQuote (s : Text) : collapseBackslashes (manQuote s) = s := by
  induction s with
  | nil => rfl
  | cons c cs ih =>
    rw [manQuote_cons]
    by_cases hc : c = backslash
    · simp [hc, collapseBackslashes, ih]
    · simp only [hc, if_false, List.singleton_append]
      cases hm : manQuote cs with
      | nil =>
        rw [hm] at ih
        simp [collapseBackslashes] at ih ⊢
        exact ih
      | cons d rest =>
        rw [hm] at ih
        simp [collapseBackslashes, hc, ih]

/-- C19: the scanning loop of `formatForMan` ends on every text: `len(s) + 1`
iterations are enough and more fuel changes nothing.  An iteration that finds no
backtick, or a backtick with no apostrophe after it, ends the loop; any other
iteration goes on with a remaining text that is shorter by at least two bytes,
the backtick at `i` and the apostrophe at `j` behind it. -/
theorem formatForMan_terminates (wr s : Text) :
    (∃ out, formatForMan wr s = some out) ∧
    (∀ fuel, s.length < fuel → formatForManLoop fuel wr s = formatForMan wr s) ∧
    (indexRune s backtick = none →
      ∀ fuel, formatForManLoop (fuel + 1) wr s = some (wr ++ manQuote s)) ∧
    (∀ i, indexRune s backtick = some i → indexRune (s.drop (i + 1)) apostrophe = none →
      ∀ fuel, formatForManLoop (fuel + 1) wr s =
        some (wr ++ manQuote (s.take i) ++ manQuote (s.drop (i + 1)))) ∧
    (∀ i j, indexRune s backtick = some i → indexRune (s.drop (i + 1)) apostrophe = some j →
      s[i]? = some backtick ∧ (s.drop (i + 1))[j]? = some apostrophe ∧
      ((s.drop (i + 1)).drop (j + 1)).length + 2 ≤ s.length ∧
      ∀ fuel, formatForManLoop (fuel + 1) wr s =
        formatForManLoop fuel
          (wr ++ manQuote (s.take i) ++
            (str "\\fB" ++ manQuote ((s.drop (i + 1)).take j) ++ str "\\fP"))
          ((s.drop (i + 1)).drop (j + 1))) := by
  refine ⟨formatForMan_total wr s, fun fuel h => ?_, fun h fuel => ?_, fun i h1 h2 fuel => ?_,
    fun i j h1 h2 => ⟨indexRune_getElem h1, indexRune_getElem h2, ?_, fun fuel => ?_⟩⟩
  · exact formatForManLoop_fuel fuel (s.length + 1) wr s h (Nat.lt_succ_self _)
  · simp only [formatForManLoop, h]
  · simp only [formatForManLoop, h1, h2]
  · have a := indexRune_lt h1
    have b := indexRune_lt h2
    simp only [List.length_drop] at b ⊢
    omega
  · simp only [formatForManLoop, h1, h2]

/-- C20: `manQuote` loses nothing: it is injective, replacing every pair of
adjacent backslashes by one, from left to right, in `manQuote s` gives `s` back,
and `manQuote` of a concatenation is the concatenation of the `manQuote`s. -/
theorem manQuote_lossless :
    (∀ s t : Text, manQuote s = manQuote t → s = t) ∧
    (∀ s : Text, collapseBackslashes (manQuote s) = s) ∧
    (∀ a b : Text, manQuote (a ++ b) = manQuote a ++ manQuote b) := by
  refine ⟨fun s t h => ?_, collapseBackslashes_manQuote, manQuote_append⟩
  rw [← collapseBackslashes_manQuote s, ← collapseBackslashes_manQuote t, h]

/-! ## Invisible groups -/

theorem visitGroup_hidden (env : Env) (grp : Group) (wr : Text) (g : Group)
    (h : g.showInHelp = false) : visitGroup env grp wr g = some wr := by
  simp [visitGroup, h]

theorem visitGroup_total (env : Env) (grp : Group) (wr : Text) (g : Group) :
    ∃ own, visitGroup env grp [] g = some own ∧ visitGroup env grp wr g = some (wr ++ own) := by
  cases hv : g.showInHelp with
  | false => exact ⟨[], visitGroup_hidden env grp [] g hv, by simp [visitGroup_hidden env grp wr g hv]⟩
  | true =>
    obtain ⟨h, hh⟩ := specGroupHeader_total g
    obtain ⟨es, -, hw⟩ := writeOptions_entries env [] g.options
    refine ⟨(if g.ShortDescription ≠ [] ∧ grp.groups.length > 0 then h else []) ++ es.flatten,
      ?_, ?_⟩
    · rw [visitGroup_visible env grp [] g hv h hh, writeOptions_wr, hw]
      simp
    · rw [visitGroup_visible env grp wr g hv h hh, writeOptions_wr, hw]
      simp

theorem visitGroup_congr (env : Env) (grp grp' : Group)
    (h : grp'.groups.length = grp.groups.length) : visitGroup env grp' = visitGroup env grp := by
  funext wr g
  simp [visitGroup, h]

theorem foldlM_visitGroup (env : Env) (grp : Group) (wr : Text) (gs : List Group) :
    ∃ out, gs.foldlM (visitGroup env grp) [] = some out ∧
      gs.foldlM (visitGroup env grp) wr = some (wr ++ out) := by
  induction gs generalizing wr with
  | nil => exact ⟨[], rfl, by simp⟩
  | cons g gs ih =>
    obtain ⟨own, h0, h1⟩ := visitGroup_total env grp wr g
    obtain ⟨rest, r0, r1⟩ := ih (wr ++ own)
    obtain ⟨rest', r0', r1'⟩ := ih own
    have e : rest' = rest := by
      rw [r0] at r0'
      exact (Option.some.inj r0').symm
    subst e
    refine ⟨own ++ rest', ?_, ?_⟩
    · simp only [List.foldlM_cons, h0, Option.bind_eq_bind, Option.some_bind, r1']
    · simp only [List.foldlM_cons, h1, Option.bind_eq_bind, Option.some_bind, r1,
        List.append_assoc]

theorem foldlM_visitGroup_filter (env : Env) (grp : Group) (wr : Text) (gs : List Group) :
    (gs.filter (fun g => g.showInHelp)).foldlM (visitGroup env grp) wr =
      gs.foldlM (visitGroup env grp) wr := by
  induction gs generalizing wr with
  | nil => rfl
  | cons g gs ih =>
    cases hv : g.showInHelp with
    | false =>
      simp only [List.filter, hv, List.foldlM_cons, visitGroup_hidden env grp wr g hv,
        Option.bind_eq_bind, Option.some_bind]
      exact ih wr
    | true =>
      simp only [List.filter, hv, List.foldlM_cons, Option.bind_eq_bind]
      cases visitGroup env grp wr g with
      | none => rfl
      | some w => simp [ih]

theorem eachGroup_subtree (env : Env) (grp : Group) (wr : Text) (p : Group) :
    ∃ own subs,
      visitGroup env grp [] { p with showInHelp := true } = some own ∧
      (preorderList p.groups).foldlM (visitGroup env grp) [] = some subs ∧
      Group.eachGroup { p with showInHelp := false } (visitGroup env grp) wr =
        some (wr ++ subs) ∧
      Group.eachGroup { p with showInHelp := true } (visitGroup env grp) wr =
        some (wr ++ own ++ subs) := by
  obtain ⟨own, h0, h1⟩ := visitGroup_total env grp wr { p with showInHelp := true }
  obtain ⟨subs, s0, s1⟩ := foldlM_visitGroup env grp wr (preorderList p.groups)
  obtain ⟨subs', s0', s1'⟩ := foldlM_visitGroup env grp (wr ++ own) (preorderList p.groups)
  have e : subs' = subs := by
    rw [s0] at s0'
    exact (Option.some.inj s0').symm
  subst e
  refine ⟨own, subs', h0, s0, ?_, ?_⟩
  · unfold Group.eachGroup
    rw [preorder_eq]
    simp only [List.foldlM_cons, Option.bind_eq_bind]
    rw [visitGroup_hidden env grp wr _ rfl]
    exact s1
  · unfold Group.eachGroup
    rw [preorder_eq]
    simp only [List.foldlM_cons, Option.bind_eq_bind, h1, Option.some_bind]
    exact s1'

/-- C11: a group whose `showInHelp()` is false adds nothing to the output, neither
header nor entry, so the output is that of the visible groups of the pre-order
alone; its sub-groups are visited all the same: below any group `p`, and below
the group `writeManPageOptions` is called on, the sub-groups write the same bytes
`subs` when `p` is invisible as when it is visible, where `p` writes `own` before
them.  In the example tree with the root made invisible the leaf is rendered as
it is under the visible root. -/
theorem writeManPageOptions_invisible_group (env : Env) (grp : Group) (wr : Text) (p : Group) :
    (∀ g : Group, g.showInHelp = false → visitGroup env grp wr g = some wr) ∧
    writeManPageOptions env wr grp =
      (grp.preorder.filter (fun g => g.showInHelp)).foldlM (visitGroup env grp) wr ∧
    (∃ own subs,
      visitGroup env grp [] { p with showInHelp := true } = some own ∧
      (preorderList p.groups).foldlM (visitGroup env grp) [] = some subs ∧
      Group.eachGroup { p with showInHelp := false } (visitGroup env grp) wr =
        some (wr ++ subs) ∧
      Group.eachGroup { p with showInHelp := true } (visitGroup env grp) wr =
        some (wr ++ own ++ subs)) ∧
    (∃ own subs,
      visitGroup env p [] { p with showInHelp := true } = some own ∧
      (preorderList p.groups).foldlM (visitGroup env p) [] = some subs ∧
      writeManPageOptions env wr { p with showInHelp := false } = some (wr ++ subs) ∧
      writeManPageOptions env wr { p with showInHelp := true } = some (wr ++ own ++ subs)) ∧
    writeManPageOptions exampleEnv [] { exampleRoot with showInHelp := false } =
      some (str (".SS Network\nUse \\fBnet\\fP\n" ++
        ".TP\n\\fB\\fB\\-\\-port\\fR \\fIPORT\\fR\\fP\n")) := by
  refine ⟨fun g h => visitGroup_hidden env grp wr g h, ?_, eachGroup_subtree env grp wr p, ?_,
    by decide⟩
  · unfold writeManPageOptions Group.eachGroup
    exact (foldlM_visitGroup_filter env grp wr grp.preorder).symm
  · obtain ⟨own, subs, h1, h2, h3, h4⟩ := eachGroup_subtree env p wr p
    refine ⟨own, subs, h1, h2, ?_, ?_⟩
    · unfold writeManPageOptions
      rw [visitGroup_congr env p { p with showInHelp := false } rfl]
      exact h3
    · unfold writeManPageOptions
      rw [visitGroup_congr env p { p with showInHelp := true } rfl]
      exact h4

/-! ## Lemmas on the command walker -/

theorem writeManPageOptions_total (env : Env) (wr : Text) (g : Group) :
    ∃ out, writeManPageOptions env [] g = some out ∧
      writeManPageOptions env wr g = some (wr ++ out) :=
  foldlM_visitGroup env g wr g.preorder

theorem writeLongDescription_total (wr : Text) (c : Command) :
    ∃ ld, writeLongDescription [] c = some ld ∧ writeLongDescription wr c = some (wr ++ ld) := by
  unfold writeLongDescription
  by_cases h : c.LongDescription.length > 0
  · simp only [h, if_true]
    split
    · obtain ⟨r, hr⟩ := formatForMan_total []
        (c.LongDescription.drop (str "The " ++ manQuote c.Name ++ str " command").length)
      refine ⟨str "\n" ++ (str "The \\fI" ++ manQuote c.Name ++ str "\\fP command") ++ r ++
        str "\n", ?_, ?_⟩
      · rw [formatForMan_wr, hr]; simp
      · rw [formatForMan_wr, hr]; simp
    · obtain ⟨r, hr⟩ := formatForMan_total [] c.LongDescription
      refine ⟨str "\n" ++ r ++ str "\n", ?_, ?_⟩
      · rw [formatForMan_wr, hr]; simp
      · rw [formatForMan_wr, hr]; simp
  · simp only [h, if_false]
    exact ⟨[], rfl, by simp⟩

theorem writeManPageCommandBody_parts (env : Env) (wr name : Text) (c : Command) :
    ∃ ld opts, writeLongDescription [] c = some ld ∧
      writeManPageOptions env [] c.Group = some opts ∧
      writeManPageCommandBody env wr name c = some (wr ++ (str ".SS " ++ name ++ str "\n" ++
        c.ShortDescription ++ str "\n" ++ ld ++ commandUsageLine c ++ commandAliasesLine c ++
        opts)) := by
  obtain ⟨ld, l0, l1⟩ := writeLongDescription_total
    (wr ++ (str ".SS " ++ name ++ str "\n") ++ c.ShortDescription ++ str "\n") c
  obtain ⟨opts, o0, o1⟩ := writeManPageOptions_total env
    (wr ++ (str ".SS " ++ name ++ str "\n" ++ c.ShortDescription ++ str "\n" ++ ld ++
      commandUsageLine c ++ commandAliasesLine c)) c.Group
  refine ⟨ld, opts, l0, o0, ?_⟩
  unfold writeManPageCommandBody
  simp only [l1, Option.some_bind, ite_append_right]
  convert o1 using 2
  · simp only [commandUsageLine, commandAliasesLine, List.append_assoc]
  · simp only [List.append_assoc]

theorem writeManPageCommand_eq (env : Env) (wr name : Text) (root c : Command) :
    writeManPageCommand env wr name root c =
      (writeManPageCommandBody env wr name c).bind
        fun wr => writeManPageSubcommands env wr name c := by
  cases c
  simp only [writeManPageCommand, writeManPageSubcommands]

theorem writeManPageCommandBody_total (env : Env) (wr name : Text) (c : Command) :
    ∃ body, writeManPageCommandBody env [] name c = some body ∧
      writeManPageCommandBody env wr name c = some (wr ++ body) := by
  obtain ⟨l, o, hl, ho, hb⟩ := writeManPageCommandBody_parts env wr name c
  obtain ⟨l', o', hl', ho', hb'⟩ := writeManPageCommandBody_parts env [] name c
  have el : l' = l := by rw [hl] at hl'; exact (Option.some.inj hl').symm
  have eo : o' = o := by rw [ho] at ho'; exact (Option.some.inj ho').symm
  subst el eo
  exact ⟨_, hb', hb⟩

mutual
theorem writeManPageCommand_total (env : Env) :
    (c : Command) → ∀ (wr name : Text) (root : Command),
      ∃ out, writeManPageCommand env [] name root c = some out ∧
        writeManPageCommand env wr name root c = some (wr ++ out)
  | ⟨n, sd, ld, al, hid, g, du, hh, par, subs⟩ => by
    intro wr name root
    obtain ⟨body, hb0, hb⟩ := writeManPageCommandBody_total env wr name
      ⟨n, sd, ld, al, hid, g, du, hh, par, subs⟩
    obtain ⟨out, s0, s1⟩ := writeSubcommands_total env subs (wr ++ body) name
      ⟨n, sd, ld, al, hid, g, du, hh, par, subs⟩
    obtain ⟨out', s0', s1'⟩ := writeSubcommands_total env subs ([] ++ body) name
      ⟨n, sd, ld, al, hid, g, du, hh, par, subs⟩
    have e : out' = out := by rw [s0] at s0'; exact (Option.some.inj s0').symm
    subst e
    refine ⟨body ++ out', ?_, ?_⟩
    · simp only [writeManPageCommand, hb0, Option.some_bind]
      simpa using s1'
    · simp only [writeManPageCommand, hb, Option.some_bind, s1, List.append_assoc]
theorem writeSubcommands_total (env : Env) :
    (cs : List Command) → ∀ (wr name : Text) (root : Command),
      ∃ out, writeSubcommands env [] name root cs = some out ∧
        writeSubcommands env wr name root cs = some (wr ++ out)
  | [] => fun wr _ _ => ⟨[], rfl, by simp [writeSubcommands]⟩
  | c :: cs => by
    intro wr name root
    by_cases hh : c.Hidden = true
    · obtain ⟨out, s0, s1⟩ := writeSubcommands_total env cs wr name root
      exact ⟨out, by simp only [writeSubcommands, hh, if_true, s0],
        by simp only [writeSubcommands, hh, if_true, s1]⟩
    · obtain ⟨sec, c0, c1⟩ := writeManPageCommand_total env c wr
        (if name.length ≠ 0 then name ++ str " " ++ c.Name else c.Name) root
      obtain ⟨out, s0, s1⟩ := writeSubcommands_total env cs (wr ++ sec) name root
      obtain ⟨out', s0', s1'⟩ := writeSubcommands_total env cs sec name root
      have e : out' = out := by rw [s0] at s0'; exact (Option.some.inj s0').symm
      subst e
      refine ⟨sec ++ out', ?_, ?_⟩
      · rw [writeSubcommands, if_neg hh]
        simp only [c0, Option.some_bind, s1']
      · rw [writeSubcommands, if_neg hh]
        simp only [c1, Option.some_bind, s1]
        simp
end

theorem writeManPageCommand_root (env : Env) (wr name : Text) (root root' c : Command) :
    writeManPageCommand env wr name root c = writeManPageCommand env wr name root' c := by
  rw [writeManPageCommand_eq, writeManPageCommand_eq]

theorem writeSubcommands_root (env : Env) (wr name : Text) (root root' : Command)
    (cs : List Command) :
    writeSubcommands env wr name root cs = writeSubcommands env wr name root' cs := by
  induction cs generalizing wr with
  | nil => simp [writeSubcommands]
  | cons c cs ih =>
    by_cases hh : c.Hidden = true
    · rw [writeSubcommands, writeSubcommands, if_pos hh, if_pos hh]
      exact ih wr
    · rw [writeSubcommands, writeSubcommands, if_neg hh, if_neg hh]
      simp only [writeManPageCommand_root env wr _ root root' c]
      cases writeManPageCommand env wr
          (if name.length ≠ 0 then name ++ str " " ++ c.Name else c.Name) root' c with
      | none => rfl
      | some w => simp [ih]

theorem writeSubcommands_filter (env : Env) (wr name : Text) (root : Command)
    (cs : List Command) :
    writeSubcommands env wr name root (cs.filter (fun c => !c.Hidden)) =
      writeSubcommands env wr name root cs := by
  induction cs generalizing wr with
  | nil => rfl
  | cons c cs ih =>
    by_cases hh : c.Hidden = true
    · rw [writeSubcommands, if_pos hh]
      simp only [List.filter, hh, Bool.not_true]
      exact ih wr
    · have hf : c.Hidden = false := by simpa using hh
      simp only [List.filter, hf, Bool.not_false]
      rw [writeSubcommands, writeSubcommands, if_neg hh, if_neg hh]
      dsimp only
      simp only [ih]

theorem writeSubcommands_sections (env : Env) (wr name : Text) (root : Command)
    (cs : List Command) :
    ∃ secs : List Text,
      List.Forall₂
        (fun c sec => writeManPageCommand env [] (qualifiedName name c) root c = some sec ∧
          ∃ r, sec = str ".SS " ++ qualifiedName name c ++ str "\n" ++ r)
        (cs.filter (fun c => !c.Hidden)) secs ∧
      writeSubcommands env wr name root cs = some (wr ++ secs.flatten) := by
  induction cs generalizing wr with
  | nil => exact ⟨[], by simp, by simp [writeSubcommands]⟩
  | cons c cs ih =>
    by_cases hh : c.Hidden = true
    · obtain ⟨secs, h1, h2⟩ := ih wr
      refine ⟨secs, ?_, ?_⟩
      · simpa only [List.filter, hh, Bool.not_true] using h1
      · rw [writeSubcommands, if_pos hh]
        exact h2
    · have hf : c.Hidden = false := by simpa using hh
      obtain ⟨sec, c0, c1⟩ := writeManPageCommand_total env c wr (qualifiedName name c) root
      obtain ⟨secs, h1, h2⟩ := ih (wr ++ sec)
      have hstart : ∃ r, sec = str ".SS " ++ qualifiedName name c ++ str "\n" ++ r := by
        obtain ⟨body, b0, -⟩ := writeManPageCommandBody_total env [] (qualifiedName name c) c
        obtain ⟨l, o, -, -, hb⟩ := writeManPageCommandBody_parts env [] (qualifiedName name c) c
        rw [writeManPageCommand_eq, hb] at c0
        obtain ⟨out, -, s1⟩ := writeSubcommands_total env c.sortedVisibleCommands
          ([] ++ (str ".SS " ++ qualifiedName name c ++ str "\n" ++ c.ShortDescription ++
            str "\n" ++ l ++ commandUsageLine c ++ commandAliasesLine c ++ o))
          (qualifiedName name c) c
        simp only [Option.some_bind, writeManPageSubcommands] at c0
        rw [s1] at c0
        have c0' := Option.some.inj c0
        exact ⟨c.ShortDescription ++ str "\n" ++ l ++ commandUsageLine c ++
          commandAliasesLine c ++ o ++ out,
          by rw [← c0']; simp only [List.nil_append, List.append_assoc]⟩
      refine ⟨sec :: secs, ?_, ?_⟩
      · simp only [List.filter, hf, Bool.not_false]
        exact List.Forall₂.cons ⟨c0, hstart⟩ h1
      · rw [writeSubcommands, if_neg hh]
        have c1' : writeManPageCommand env wr
            (if name.length ≠ 0 then name ++ str " " ++ c.Name else c.Name) root c =
            some (wr ++ sec) := c1
        simp only [c1', Option.some_bind, h2]
        simp

/-! ## The command walker -/

/-- C12: `writeManPageSubcommands` writes no section for a command of the list
whose `Hidden` flag is set, whatever options the command has: the output is that
for the list without the hidden commands, and it is the concatenation, in the
order of the list, of the sections `writeManPageCommand` writes for the commands
that are not hidden.  In the example the hidden `secret`, which has visible
options, leaves no trace. -/
theorem writeManPageSubcommands_hidden (env : Env) (wr name : Text) (root : Command) :
    writeManPageSubcommands env wr name
        { root with
          sortedVisibleCommands := root.sortedVisibleCommands.filter (fun c => !c.Hidden) } =
      writeManPageSubcommands env wr name root ∧
    (∃ secs : List Text,
      List.Forall₂
        (fun c sec => writeManPageCommand env [] (qualifiedName name c) root c = some sec ∧
          ∃ r, sec = str ".SS " ++ qualifiedName name c ++ str "\n" ++ r)
        (root.sortedVisibleCommands.filter (fun c => !c.Hidden)) secs ∧
      writeManPageSubcommands env wr name root = some (wr ++ secs.flatten)) ∧
    writeManPageSubcommands exampleEnv [] []
        { exampleCommand with sortedVisibleCommands := [hiddenCommand, statusCommand] } =
      some (str (".SS status\nShow status\n\nThe \\fIstatus\\fP command does X\n" ++
        "\n\\fBUsage\\fP: app status [status-OPTIONS]\n.TP\n" ++
        ".TP\n\\fB\\fB\\-v\\fR, \\fB\\-\\-verbose\\fR\\fP\nBe \\fBloud\\fP\n")) := by
  refine ⟨?_, writeSubcommands_sections env wr name root root.sortedVisibleCommands, by decide⟩
  unfold writeManPageSubcommands
  rw [writeSubcommands_root env wr name _ root]
  exact writeSubcommands_filter env wr name root root.sortedVisibleCommands

/-! ## Qualified paths -/

theorem join_names (x : Text) (xs : List Text) :
    join (x :: xs) (str " ") = x ++ (xs.map (fun n => str " " ++ n)).flatten := by
  induction xs generalizing x with
  | nil => simp [join, List.intercalate]
  | cons y ys ih =>
    have h := ih y
    simp only [join, List.intercalate, List.intersperse, List.flatten_cons, List.map_cons,
      List.append_assoc] at h ⊢
    rw [h]

theorem foldl_qualifiedName (acc : Text) (h : acc ≠ []) (cs : List Command) :
    cs.foldl qualifiedName acc = acc ++ (cs.map (fun c => str " " ++ c.Name)).flatten := by
  induction cs generalizing acc with
  | nil => simp
  | cons c cs ih =>
    have hl : acc.length ≠ 0 := fun e => h (List.length_eq_zero.1 e)
    have hq : qualifiedName acc c = acc ++ str " " ++ c.Name := by
      simp only [qualifiedName, hl, ne_eq, not_false_eq_true, if_true]
    have hne : qualifiedName acc c ≠ [] := by
      rw [hq]
      intro e
      have := congrArg List.length e
      simp only [List.length_append, List.length_nil] at this
      omega
    rw [List.foldl_cons, ih _ hne, hq]
    simp only [List.map_cons, List.flatten_cons, List.append_assoc]

theorem foldl_qualifiedName_path (a : Command) (rest : List Command)
    (h : rest = [] ∨ a.Name ≠ []) :
    (a :: rest).foldl qualifiedName [] = join ((a :: rest).map Command.Name) (str " ") := by
  have h0 : qualifiedName [] a = a.Name := by simp [qualifiedName]
  rw [List.foldl_cons, h0, List.map_cons, join_names]
  rcases h with h | h
  · subst h
    simp
  · rw [foldl_qualifiedName _ h]
    simp [List.map_map, Function.comp_def]

theorem IsPath.mono {cs cs' : List Command} {extra : List Command} {c : Command}
    (hsub : ∀ x, x ∈ cs → x ∈ cs') (h : IsPath cs extra c) : IsPath cs' extra c := by
  cases h with
  | direct hm hh => exact IsPath.direct (hsub _ hm) hh
  | through hm hh hp => exact IsPath.through (hsub _ hm) hh hp

mutual
theorem commandCalls_path :
    (c : Command) → ∀ (anc : List Command) (name : Text) (k : Call),
      k ∈ commandCalls anc name c →
      (k.ancestors = anc ∧ k.name = name ∧ k.command = c) ∨
      ∃ extra, k.ancestors = anc ++ c :: extra ∧
        IsPath c.sortedVisibleCommands extra k.command ∧
        k.name = (extra ++ [k.command]).foldl qualifiedName name
  | ⟨n, sd, ld, al, hid, g, du, hh, par, subs⟩ => by
    intro anc name k hk
    rw [commandCalls, List.mem_cons] at hk
    rcases hk with hk | hk
    · left
      subst hk
      exact ⟨rfl, rfl, rfl⟩
    · right
      obtain ⟨extra, h1, h2, h3⟩ := subcommandCalls_path subs _ name k hk
      exact ⟨extra, by rw [h1]; simp, h2, h3⟩
theorem subcommandCalls_path :
    (cs : List Command) → ∀ (anc : List Command) (name : Text) (k : Call),
      k ∈ subcommandCalls anc name cs →
      ∃ extra, k.ancestors = anc ++ extra ∧ IsPath cs extra k.command ∧
        k.name = (extra ++ [k.command]).foldl qualifiedName name
  | [] => by
    intro anc name k hk
    simp [subcommandCalls] at hk
  | c :: cs => by
    intro anc name k hk
    by_cases hh : c.Hidden = true
    · rw [subcommandCalls, if_pos hh] at hk
      obtain ⟨extra, h1, h2, h3⟩ := subcommandCalls_path cs anc name k hk
      exact ⟨extra, h1, h2.mono (fun x hx => List.mem_cons_of_mem _ hx), h3⟩
    · have hf : c.Hidden = false := by simpa using hh
      rw [subcommandCalls, if_neg hh, List.mem_append] at hk
      rcases hk with hk | hk
      · rcases commandCalls_path c anc (qualifiedName name c) k hk with ⟨h1, h2, h3⟩ | h
        · refine ⟨[], by simp [h1], ?_, ?_⟩
          · rw [h3]
            exact IsPath.direct (List.mem_cons_self _ _) hf
          · rw [h2, h3]
            simp
        · obtain ⟨extra, h1, h2, h3⟩ := h
          exact ⟨c :: extra, h1, IsPath.through (List.mem_cons_self _ _) hf h2, by rw [h3]; simp⟩
      · obtain ⟨extra, h1, h2, h3⟩ := subcommandCalls_path cs anc name k hk
        exact ⟨extra, h1, h2.mono (fun x hx => List.mem_cons_of_mem _ hx), h3⟩
end

theorem writeManPageCommandBody_start (env : Env) (wr name : Text) (c : Command) :
    ∃ sec, (writeManPageCommandBody env [] name c = some sec ∧
        ∃ r, sec = str ".SS " ++ name ++ str "\n" ++ r) ∧
      writeManPageCommandBody env wr name c = some (wr ++ sec) := by
  obtain ⟨body, b0, b1⟩ := writeManPageCommandBody_total env wr name c
  obtain ⟨l, o, -, -, hb⟩ := writeManPageCommandBody_parts env [] name c
  refine ⟨body, ⟨b0, ?_⟩, b1⟩
  rw [b0] at hb
  have e := Option.some.inj hb
  exact ⟨c.ShortDescription ++ str "\n" ++ l ++ commandUsageLine c ++ commandAliasesLine c ++ o,
    by rw [e]; simp only [List.nil_append, List.append_assoc]⟩

mutual
theorem commandCalls_output (env : Env) :
    (c : Command) → ∀ (wr : Text) (anc : List Command) (name : Text) (root : Command),
      ∃ secs : List Text,
        List.Forall₂
          (fun k sec => writeManPageCommandBody env [] k.name k.command = some sec ∧
            ∃ r, sec = str ".SS " ++ k.name ++ str "\n" ++ r)
          (commandCalls anc name c) secs ∧
        writeManPageCommand env wr name root c = some (wr ++ secs.flatten)
  | ⟨n, sd, ld, al, hid, g, du, hh, par, subs⟩ => by
    intro wr anc name root
    obtain ⟨sec, hs, hb⟩ := writeManPageCommandBody_start env wr name
      ⟨n, sd, ld, al, hid, g, du, hh, par, subs⟩
    obtain ⟨secs, h1, h2⟩ := subcommandCalls_output env subs (wr ++ sec)
      (anc ++ [⟨n, sd, ld, al, hid, g, du, hh, par, subs⟩]) name
      ⟨n, sd, ld, al, hid, g, du, hh, par, subs⟩
    refine ⟨sec :: secs, ?_, ?_⟩
    · rw [commandCalls]
      exact List.Forall₂.cons hs h1
    · simp only [writeManPageCommand, hb, Option.some_bind, h2]
      simp
theorem subcommandCalls_output (env : Env) :
    (cs : List Command) → ∀ (wr : Text) (anc : List Command) (name : Text) (root : Command),
      ∃ secs : List Text,
        List.Forall₂
          (fun k sec => writeManPageCommandBody env [] k.name k.command = some sec ∧
            ∃ r, sec = str ".SS " ++ k.name ++ str "\n" ++ r)
          (subcommandCalls anc name cs) secs ∧
        writeSubcommands env wr name root cs = some (wr ++ secs.flatten)
  | [] => fun wr _ _ _ => ⟨[], by simp [subcommandCalls], by simp [writeSubcommands]⟩
  | c :: cs => by
    intro wr anc name root
    by_cases hh : c.Hidden = true
    · obtain ⟨secs, h1, h2⟩ := subcommandCalls_output env cs wr anc name root
      refine ⟨secs, ?_, ?_⟩
      · rw [subcommandCalls, if_pos hh]
        exact h1
      · rw [writeSubcommands, if_pos hh]
        exact h2
    · obtain ⟨secs1, a1, a2⟩ := commandCalls_output env c wr anc (qualifiedName name c) root
      obtain ⟨secs2, b1, b2⟩ := subcommandCalls_output env cs (wr ++ secs1.flatten) anc name root
      refine ⟨secs1 ++ secs2, ?_, ?_⟩
      · rw [subcommandCalls, if_neg hh]
        exact List.rel_append a1 b1
      · rw [writeSubcommands, if_neg hh]
        have a2' : writeManPageCommand env wr
            (if name.length ≠ 0 then name ++ str " " ++ c.Name else c.Name) root c =
            some (wr ++ secs1.flatten) := a2
        simp only [a2', Option.some_bind, b2]
        simp
end

theorem forall₂_of_mem {α β : Type} {P : α → β → Prop} {l : List α} {m : List β}
    (h : List.Forall₂ P l m) {k : α} (hk : k ∈ l) :
    ∃ pre sec post, m = pre ++ sec :: post ∧ P k sec := by
  induction h with
  | nil => simp at hk
  | cons hab _ ih =>
    rcases List.mem_cons.1 hk with e | hk'
    · subst e
      exact ⟨[], _, _, rfl, hab⟩
    · obtain ⟨pre, sec, post, e, hp⟩ := ih hk'
      exact ⟨_ :: pre, sec, post, by rw [e]; rfl, hp⟩

/-- C13 as stated fails: below a command whose name is empty the walker passes on
the empty prefix, so the command `d` below it gets the header `.SS d`, while the
names of its ancestor and its own joined by single spaces are ` d`, with a
leading space. -/
theorem writeManPageSubcommands_qualified_path_counterexample :
    writeManPageSubcommands exampleEnv [] [] unnamedRootCommand =
      some (str ".SS \n\n.SS d\n\n") ∧
    (subcommandCalls [] [] unnamedRootCommand.sortedVisibleCommands).map
        (fun k => (k.ancestors.map Command.Name, k.name, k.command.Name)) =
      [([], str "", str ""), ([str ""], str "d", str "d")] ∧
    specQualifiedPath [unnamedCommand] belowUnnamedCommand = str " d" ∧
    str "d" ≠ specQualifiedPath [unnamedCommand] belowUnnamedCommand := by
  decide

/-- C13 amended: every call `k` of `writeManPageCommand` that the walker makes when
started on `root` with the empty prefix is for a command reached from the
sub-commands of `root` through `k.ancestors`; if the command is at depth one, or
the outermost of those ancestors has a non-empty name, then the `name` argument
is the qualified path (the names of the ancestors below the root, outermost
first, then the name of the command, joined by single spaces, without the name
of the root), and the section the call writes into the output starts with `.SS`,
that path and a line break. -/
theorem writeManPageSubcommands_qualified_path (env : Env) (wr : Text) (root : Command)
    (k : Call) (hk : k ∈ subcommandCalls [] [] root.sortedVisibleCommands)
    (hname : k.ancestors = [] ∨ ∃ a rest, k.ancestors = a :: rest ∧ a.Name ≠ []) :
    IsPath root.sortedVisibleCommands k.ancestors k.command ∧
    k.name = specQualifiedPath k.ancestors k.command ∧
    ∃ pre sec post r,
      writeManPageCommandBody env [] k.name k.command = some sec ∧
      sec = str ".SS " ++ specQualifiedPath k.ancestors k.command ++ str "\n" ++ r ∧
      writeManPageSubcommands env wr [] root = some (wr ++ pre ++ sec ++ post) := by
  obtain ⟨extra, h1, h2, h3⟩ := subcommandCalls_path root.sortedVisibleCommands [] [] k hk
  simp only [List.nil_append] at h1
  have hn : k.name = specQualifiedPath k.ancestors k.command := by
    rw [h3, specQualifiedPath, h1]
    rcases hname with e | ⟨a, rest, e, ha⟩
    · rw [h1] at e
      subst e
      exact foldl_qualifiedName_path k.command [] (Or.inl rfl)
    · rw [h1] at e
      subst e
      exact foldl_qualifiedName_path a (rest ++ [k.command]) (Or.inr ha)
  refine ⟨by rw [h1]; exact h2, hn, ?_⟩
  obtain ⟨secs, f, hw⟩ := subcommandCalls_output env root.sortedVisibleCommands wr [] [] root
  obtain ⟨pre, sec, post, e, hb, r, hr⟩ := forall₂_of_mem f hk
  refine ⟨pre.flatten, sec, post.flatten, r, hb, by rw [hr, hn], ?_⟩
  unfold writeManPageSubcommands
  rw [hw, e]
  simp

/-- Witness of C13 amended: the command `c` below `b` below `a` in the example
tree, whose section header is `.SS a b c`. -/
theorem writeManPageSubcommands_qualified_path_witness :
    IsPath exampleRootCommand.sortedVisibleCommands [topCommandA, middleCommandB]
      leafCommandC ∧
    str "a b c" = specQualifiedPath [topCommandA, middleCommandB] leafCommandC ∧
    ∃ pre sec post r,
      writeManPageCommandBody exampleEnv [] (str "a b c") leafCommandC = some sec ∧
      sec = str ".SS " ++ specQualifiedPath [topCommandA, middleCommandB] leafCommandC ++
        str "\n" ++ r ∧
      writeManPageSubcommands exampleEnv [] [] exampleRootCommand =
        some ([] ++ pre ++ sec ++ post) :=
  writeManPageSubcommands_qualified_path exampleEnv [] exampleRootCommand
    ⟨[topCommandA, middleCommandB], str "a b c", leafCommandC⟩
    (List.Mem.tail _ (List.Mem.tail _ (List.Mem.head _)))
    (Or.inr ⟨topCommandA, [middleCommandB], rfl, by decide⟩)

/-! ## The long description, the breadcrumb and the usage line of a command -/

theorem manQuote_eq_self {s : Text} (h : backslash ∉ s) : manQuote s = s := by
  induction s with
  | nil => rfl
  | cons c cs ih =>
    have hc : c ≠ backslash := fun e => h (by simp [e])
    have hcs : backslash ∉ cs := fun m => h (List.mem_cons_of_mem _ m)
    rw [manQuote_cons, ih hcs]
    simp [hc]

theorem ancestryLoop_eq (p : Parent) (pre2 : Text) :
    ancestryLoop p pre2 = pre2 ++ (p.names.map (fun n => n ++ str " ")).flatten := by
  induction p generalizing pre2 with
  | other => simp [ancestryLoop, Parent.names]
  | command n p ih => simp [ancestryLoop, Parent.names, ih]

/-- C14 as stated fails: for the command `status` with the long description
`The status command does X` the name is written between `\fI` and `\fP`, not
between the `\fB` and `\fP` that `formatForMan` puts around a span; and for a
command named `a\b` the long description `The a\b command x` starts with that
phrase but is written through `formatForMan` as a whole. -/
theorem writeLongDescription_lead_in_counterexample :
    writeLongDescription [] statusCommand =
      some (str "\nThe \\fIstatus\\fP command does X\n") ∧
    formatForMan [] (str "`status'") = some (str "\\fBstatus\\fP") ∧
    writeLongDescription [] statusCommand ≠
      some (str "\nThe \\fBstatus\\fP command does X\n") ∧
    (str "The " ++ backslashCommand.Name ++ str " command").isPrefixOf
      backslashCommand.LongDescription = true ∧
    writeLongDescription [] backslashCommand = some (str "\nThe a\\\\b command x\n") := by
  decide

/-- C14 amended: for a command whose name has no backslash, a long description
that starts with `The <Name> command` is written as a line break, the lead-in with
the name between `\fI` and `\fP` (the italic markers, not the bold run of
`formatForMan`), the remainder through `formatForMan` and a line break; a
non-empty long description that does not start with that phrase is written as a
line break, the whole of it through `formatForMan` and a line break; an empty one
writes nothing; and what is written stands in the section after the short
description. -/
theorem writeLongDescription_lead_in (env : Env) (wr name : Text) (c : Command)
    (hb : backslash ∉ c.Name) :
    (∀ rest, c.LongDescription = str "The " ++ c.Name ++ str " command" ++ rest →
      ∃ r, formatForMan [] rest = some r ∧
        writeLongDescription wr c = some (wr ++ str "\n" ++
          (str "The \\fI" ++ c.Name ++ str "\\fP command") ++ r ++ str "\n")) ∧
    (c.LongDescription ≠ [] →
      (str "The " ++ c.Name ++ str " command").isPrefixOf c.LongDescription = false →
      ∃ r, formatForMan [] c.LongDescription = some r ∧
        writeLongDescription wr c = some (wr ++ str "\n" ++ r ++ str "\n")) ∧
    (c.LongDescription = [] → writeLongDescription wr c = some wr) ∧
    (∃ ld opts, writeLongDescription [] c = some ld ∧
      writeManPageOptions env [] c.Group = some opts ∧
      writeManPageCommandBody env wr name c = some (wr ++ (str ".SS " ++ name ++ str "\n" ++
        c.ShortDescription ++ str "\n" ++ ld ++ commandUsageLine c ++ commandAliasesLine c ++
        opts))) := by
  have hq : manQuote c.Name = c.Name := manQuote_eq_self hb
  refine ⟨fun rest hld => ?_, fun hne hp => ?_, fun he => ?_,
    writeManPageCommandBody_parts env wr name c⟩
  · obtain ⟨r, hr⟩ := formatForMan_total [] rest
    refine ⟨r, hr, ?_⟩
    have hlen : c.LongDescription.length > 0 := by
      rw [hld]
      have : (str "The ").length = 4 := by decide
      simp only [List.length_append, this]
      omega
    have hpre : (str "The " ++ c.Name ++ str " command").isPrefixOf c.LongDescription = true := by
      rw [hld, List.isPrefixOf_iff_prefix]
      exact List.prefix_append _ _
    have hdrop : c.LongDescription.drop (str "The " ++ c.Name ++ str " command").length = rest := by
      rw [hld]
      exact List.drop_left _ _
    unfold writeLongDescription
    simp only [hlen, if_true, hq, hpre, hdrop]
    rw [formatForMan_wr, hr]
    simp
  · obtain ⟨r, hr⟩ := formatForMan_total [] c.LongDescription
    refine ⟨r, hr, ?_⟩
    have hlen : c.LongDescription.length > 0 := List.length_pos.2 hne
    unfold writeLongDescription
    simp only [hlen, if_true, hq, hp, Bool.false_eq_true, if_false]
    rw [formatForMan_wr, hr]
    simp
  · unfold writeLongDescription
    simp [he]

/-- Witness of C14 amended: the command `status` of the specification. -/
theorem writeLongDescription_lead_in_witness :
    (∀ rest, statusCommand.LongDescription =
        str "The " ++ statusCommand.Name ++ str " command" ++ rest →
      ∃ r, formatForMan [] rest = some r ∧
        writeLongDescription [] statusCommand = some ([] ++ str "\n" ++
          (str "The \\fI" ++ statusCommand.Name ++ str "\\fP command") ++ r ++ str "\n")) ∧
    (statusCommand.LongDescription ≠ [] →
      (str "The " ++ statusCommand.Name ++ str " command").isPrefixOf
        statusCommand.LongDescription = false →
      ∃ r, formatForMan [] statusCommand.LongDescription = some r ∧
        writeLongDescription [] statusCommand = some ([] ++ str "\n" ++ r ++ str "\n")) ∧
    (statusCommand.LongDescription = [] → writeLongDescription [] statusCommand = some []) ∧
    (∃ ld opts, writeLongDescription [] statusCommand = some ld ∧
      writeManPageOptions exampleEnv [] statusCommand.Group = some opts ∧
      writeManPageCommandBody exampleEnv [] (str "status") statusCommand =
        some ([] ++ (str ".SS " ++ str "status" ++ str "\n" ++
          statusCommand.ShortDescription ++ str "\n" ++ ld ++ commandUsageLine statusCommand ++
          commandAliasesLine statusCommand ++ opts))) :=
  writeLongDescription_lead_in exampleEnv [] (str "status") statusCommand (by decide)

/-- C15 as stated fails: for the command `status` directly below the root `app`
the breadcrumb is `app status`, with the name of the root, not `status`; and for
`c` below `b` below `a` below the root `app` it is `b a app c`, not `a b c`. -/
theorem commandBreadcrumb_counterexample :
    statusCommand.parent = Parent.command (str "app") Parent.other ∧
    commandBreadcrumb statusCommand = str "app status" ∧
    commandBreadcrumb statusCommand ≠ str "status" ∧
    commandUsageLine statusCommand =
      str "\n\\fBUsage\\fP: app status [status-OPTIONS]\n.TP\n" ∧
    leafCommandC.parent = Parent.command (str "b")
      (Parent.command (str "a") (Parent.command (str "app") Parent.other)) ∧
    commandBreadcrumb leafCommandC = str "b a app c" ∧
    commandBreadcrumb leafCommandC ≠ str "a b c" :=
  ⟨rfl, by decide, by decide, by decide, rfl, by decide, by decide⟩

/-- C15 amended: the breadcrumb that `writeManPageCommand` writes before the usage
string is made of the names of all the commands the `parent` links lead through
from the command, the root command included, each followed by one space, and then
the name of the command itself; for a command directly below the root `r` it is
`r`, a space, the name.  The order of the ancestor names is left open here.  The
breadcrumb is written, escaped, in the usage line, which follows the long
description when the usage string is not empty. -/
theorem commandBreadcrumb_ancestors (env : Env) (wr name : Text) (c : Command) :
    (∃ order : List Text, order.Perm c.parent.names ∧
      commandBreadcrumb c = (order.map (fun n => n ++ str " ")).flatten ++ c.Name) ∧
    (∀ r, c.parent = Parent.command r Parent.other →
      commandBreadcrumb c = r ++ str " " ++ c.Name) ∧
    (∃ ld opts, writeLongDescription [] c = some ld ∧
      writeManPageOptions env [] c.Group = some opts ∧
      writeManPageCommandBody env wr name c = some (wr ++ (str ".SS " ++ name ++ str "\n" ++
        c.ShortDescription ++ str "\n" ++ ld ++
        (if (commandUsage c).length > 0 then
          str "\n\\fBUsage\\fP: " ++ manQuote (commandBreadcrumb c) ++ str " " ++
            manQuote (commandUsage c) ++ str "\n.TP\n"
         else []) ++
        commandAliasesLine c ++ opts))) := by
  refine ⟨⟨c.parent.names, List.Perm.refl _, ?_⟩, fun r hr => ?_,
    writeManPageCommandBody_parts env wr name c⟩
  · simp [commandBreadcrumb, ancestryLoop_eq]
  · simp [commandBreadcrumb, ancestryLoop_eq, hr, Parent.names]

/-- C16: the usage string is the result of `Usage()` when the data of the command
has that method, help options or not; otherwise `[`, the name, `-OPTIONS]` when
`hasHelpOptions()` is true; otherwise empty.  The usage line is written, after
the long description, iff that string is not empty.  For `status` with help
options the custom usage `[FILE...]` is used when there is one, and with a custom
usage that is empty no usage line is written; the command `a`, without either,
has no usage line. -/
theorem commandUsage_choice (env : Env) (wr name : Text) (c : Command) :
    (∃ ld opts, writeLongDescription [] c = some ld ∧
      writeManPageOptions env [] c.Group = some opts ∧
      writeManPageCommandBody env wr name c = some (wr ++ (str ".SS " ++ name ++ str "\n" ++
        c.ShortDescription ++ str "\n" ++ ld ++
        (if (commandUsage c).length > 0 then
          str "\n\\fBUsage\\fP: " ++ manQuote (commandBreadcrumb c) ++ str " " ++
            manQuote (commandUsage c) ++ str "\n.TP\n"
         else []) ++
        commandAliasesLine c ++ opts))) ∧
    (∀ us, c.dataUsage = some us → commandUsage c = us) ∧
    (c.dataUsage = none → c.hasHelpOptions = true →
      commandUsage c = str "[" ++ c.Name ++ str "-OPTIONS]") ∧
    (c.dataUsage = none → c.hasHelpOptions = false → commandUsage c = []) ∧
    (commandUsageLine c ≠ [] ↔ commandUsage c ≠ []) ∧
    commandUsageLine customUsageCommand =
      str "\n\\fBUsage\\fP: app status [FILE...]\n.TP\n" ∧
    commandUsageLine { statusCommand with dataUsage := some [] } = [] ∧
    commandUsageLine statusCommand =
      str "\n\\fBUsage\\fP: app status [status-OPTIONS]\n.TP\n" ∧
    commandUsageLine topCommandA = [] := by
  refine ⟨writeManPageCommandBody_parts env wr name c, fun us h => ?_, fun h1 h2 => ?_,
    fun h1 h2 => ?_, ?_, by decide, by decide, by decide, by decide⟩
  · simp [commandUsage, h]
  · simp [commandUsage, h1, h2]
  · simp [commandUsage, h1, h2]
  · unfold commandUsageLine
    by_cases h : (commandUsage c).length > 0
    · have hne : commandUsage c ≠ [] := List.length_pos.1 h
      have h4 : (str "\n\\fBUsage\\fP: ").length = 14 := by decide
      simp only [h, if_true, hne, ne_eq, not_false_eq_true, iff_true]
      intro e
      have := congrArg List.length e
      simp only [List.length_append, h4, List.length_nil] at this
      omega
    · have he : commandUsage c = [] := by
        cases hc : commandUsage c with
        | nil => rfl
        | cons x xs => rw [hc] at h; simp at h
      simp [h, he]

/-! ## Lemmas on the document assembler -/

theorem formatForMan_of_nil {s r : Text} (wr : Text) (h : formatForMan [] s = some r) :
    formatForMan wr s = some (wr ++ r) := by
  rw [formatForMan_wr, h]
  rfl

theorem writeManPageOptions_of_nil {env : Env} {g : Group} {r : Text} (wr : Text)
    (h : writeManPageOptions env [] g = some r) :
    writeManPageOptions env wr g = some (wr ++ r) := by
  obtain ⟨out, h0, h1⟩ := writeManPageOptions_total env wr g
  rw [h0] at h
  rw [h1, Option.some.inj h]

theorem writeManPageSubcommands_of_nil {env : Env} {name : Text} {root : Command} {r : Text}
    (wr : Text) (h : writeManPageSubcommands env [] name root = some r) :
    writeManPageSubcommands env wr name root = some (wr ++ r) := by
  obtain ⟨out, h0, h1⟩ := writeSubcommands_total env root.sortedVisibleCommands wr name root
  unfold writeManPageSubcommands at h ⊢
  rw [h0] at h
  rw [h1, Option.some.inj h]

theorem writeDocument_parts (env : Env) (formatDate : Int → Text) (p : Parser) (wr : Text)
    (t : Int) :
    ∃ ld opts subs, formatForMan [] p.LongDescription = some ld ∧
      writeManPageOptions env [] p.Command.Group = some opts ∧
      writeManPageSubcommands env [] [] p.Command = some subs ∧
      writeDocument env formatDate p wr t = some (wr ++
        (str ".TH " ++ manQuote p.Name ++ str " 1 \"" ++ formatDate t ++ str "\"\n" ++
          str ".SH NAME" ++ str "\n" ++
          manQuote p.Name ++ str " \\- " ++ manQuote p.ShortDescription ++ str "\n" ++
          str ".SH SYNOPSIS" ++ str "\n" ++
          str "\\fB" ++ manQuote p.Name ++ str "\\fP " ++
          manQuote (if p.Usage.length = 0 then str "[OPTIONS]" else p.Usage) ++ str "\n" ++
          str ".SH DESCRIPTION" ++ str "\n" ++ ld ++ str "\n" ++
          str ".SH OPTIONS" ++ str "\n" ++ opts ++
          (if p.visibleCommands.length > 0 then str ".SH COMMANDS" ++ str "\n" ++ subs
           else []))) := by
  obtain ⟨ld, hld⟩ := formatForMan_total [] p.LongDescription
  obtain ⟨opts, hopts, -⟩ := writeManPageOptions_total env [] p.Command.Group
  obtain ⟨subs, hsubs, -⟩ :=
    writeSubcommands_total env p.Command.sortedVisibleCommands [] [] p.Command
  refine ⟨ld, opts, subs, hld, hopts, hsubs, ?_⟩
  unfold writeDocument
  simp only [formatForMan_of_nil _ hld, writeManPageOptions_of_nil _ hopts,
    writeManPageSubcommands_of_nil _ hsubs, Option.some_bind]
  split <;> simp only [List.append_assoc, List.append_nil]

theorem writeDocument_total (env : Env) (formatDate : Int → Text) (p : Parser) (wr : Text)
    (t : Int) :
    ∃ doc, writeDocument env formatDate p [] t = some doc ∧
      writeDocument env formatDate p wr t = some (wr ++ doc) := by
  obtain ⟨ld, opts, subs, h1, h2, h3, h⟩ := writeDocument_parts env formatDate p wr t
  obtain ⟨ld', opts', subs', h1', h2', h3', h'⟩ := writeDocument_parts env formatDate p [] t
  have e1 : ld' = ld := by rw [h1] at h1'; exact (Option.some.inj h1').symm
  have e2 : opts' = opts := by rw [h2] at h2'; exact (Option.some.inj h2').symm
  have e3 : subs' = subs := by rw [h3] at h3'; exact (Option.some.inj h3').symm
  subst e1 e2 e3
  rw [List.nil_append] at h'
  exact ⟨_, h', h⟩

/-! ## The document assembler -/

/-- C17: when `SOURCE_DATE_EPOCH` is not empty and `strconv.ParseInt` rejects it,
`WriteManPage` panics with the sink as it was, nothing written; an empty value is
taken as absent: the call returns, with the document for the current time
written.  The values `soon`, `12x` and `9223372036854775808` are rejected. -/
theorem WriteManPage_invalid_epoch (env : Env) (host : Host) (p : Parser) (wr : Text)
    (hne : host.SOURCE_DATE_EPOCH ≠ []) (hbad : parseInt host.SOURCE_DATE_EPOCH = none) :
    WriteManPage env host p wr = some (Run.panicked wr) ∧
    (∀ h : Host, h.SOURCE_DATE_EPOCH = [] →
      ∃ doc, writeDocument env h.formatDate p [] h.now = some doc ∧
        WriteManPage env h p wr = some (Run.returned (wr ++ doc))) ∧
    parseInt (str "soon") = none ∧ parseInt (str "12x") = none ∧
    parseInt (str "9223372036854775808") = none ∧
    parseInt (str "-9223372036854775808") = some (-9223372036854775808) := by
  refine ⟨?_, fun h he => ?_, by decide, by decide, by decide, by decide⟩
  · unfold WriteManPage
    simp only [hne, ne_eq, not_false_eq_true, if_true, hbad]
  · obtain ⟨doc, d0, d1⟩ := writeDocument_total env h.formatDate p wr h.now
    refine ⟨doc, d0, ?_⟩
    unfold WriteManPage
    simp only [he, ne_eq, not_true_eq_false, if_false, d1, Option.map_some']

/-- Witness of C17: the override `soon` with a sink that already holds `x`. -/
theorem WriteManPage_invalid_epoch_witness :
    WriteManPage exampleEnv { exampleHost with SOURCE_DATE_EPOCH := str "soon" } exampleParser
        (str "x") = some (Run.panicked (str "x")) ∧
    (∀ h : Host, h.SOURCE_DATE_EPOCH = [] →
      ∃ doc, writeDocument exampleEnv h.formatDate exampleParser [] h.now = some doc ∧
        WriteManPage exampleEnv h exampleParser (str "x") =
          some (Run.returned (str "x" ++ doc))) ∧
    parseInt (str "soon") = none ∧ parseInt (str "12x") = none ∧
    parseInt (str "9223372036854775808") = none ∧
    parseInt (str "-9223372036854775808") = some (-9223372036854775808) :=
  WriteManPage_invalid_epoch exampleEnv { exampleHost with SOURCE_DATE_EPOCH := str "soon" }
    exampleParser (str "x") (by decide) (by decide)

theorem writeDocument_congr (env : Env) (f g : Int → Text) (p : Parser) (wr : Text) (t : Int)
    (h : g t = f t) : writeDocument env g p wr t = writeDocument env f p wr t := by
  obtain ⟨ld, opts, subs, h1, h2, h3, hf⟩ := writeDocument_parts env f p wr t
  obtain ⟨ld', opts', subs', h1', h2', h3', hg⟩ := writeDocument_parts env g p wr t
  have e1 : ld' = ld := by rw [h1] at h1'; exact (Option.some.inj h1').symm
  have e2 : opts' = opts := by rw [h2] at h2'; exact (Option.some.inj h2').symm
  have e3 : subs' = subs := by rw [h3] at h3'; exact (Option.some.inj h3').symm
  subst e1 e2 e3
  rw [hg, hf, h]

/-- C18 as stated fails: the document is not a function of the parser and the
override alone.  The date of `time.Unix(sde, 0)` is formatted in the time zone
of the process: with the same parser, the same override `86399` and the same
clock, the host in the zone of the example writes `1 January 1970` in the title
line and the host in Asia/Tokyo writes `2 January 1970`. -/
theorem WriteManPage_reproducible_counterexample :
    parseInt (str "86399") = some 86399 ∧
    ({ exampleHost with SOURCE_DATE_EPOCH := str "86399" } : Host).now =
      ({ tokyoHost with SOURCE_DATE_EPOCH := str "86399" } : Host).now ∧
    WriteManPage exampleEnv { exampleHost with SOURCE_DATE_EPOCH := str "86399" } exampleParser
        [] =
      some (Run.returned (str (".TH app 1 \"1 January 1970\"\n.SH NAME\napp \\- An app\n" ++
        ".SH SYNOPSIS\n\\fBapp\\fP [OPTIONS]\n.SH DESCRIPTION\nDoes \\fBthings\\fP\n" ++
        ".SH OPTIONS\n.SH COMMANDS\n" ++
        ".SS status\nShow status\n\nThe \\fIstatus\\fP command does X\n" ++
        "\n\\fBUsage\\fP: app status [status-OPTIONS]\n.TP\n" ++
        ".TP\n\\fB\\fB\\-v\\fR, \\fB\\-\\-verbose\\fR\\fP\nBe \\fBloud\\fP\n"))) ∧
    WriteManPage exampleEnv { tokyoHost with SOURCE_DATE_EPOCH := str "86399" } exampleParser
        [] =
      some (Run.returned (str (".TH app 1 \"2 January 1970\"\n.SH NAME\napp \\- An app\n" ++
        ".SH SYNOPSIS\n\\fBapp\\fP [OPTIONS]\n.SH DESCRIPTION\nDoes \\fBthings\\fP\n" ++
        ".SH OPTIONS\n.SH COMMANDS\n" ++
        ".SS status\nShow status\n\nThe \\fIstatus\\fP command does X\n" ++
        "\n\\fBUsage\\fP: app status [status-OPTIONS]\n.TP\n" ++
        ".TP\n\\fB\\fB\\-v\\fR, \\fB\\-\\-verbose\\fR\\fP\nBe \\fBloud\\fP\n"))) ∧
    WriteManPage exampleEnv { exampleHost with SOURCE_DATE_EPOCH := str "86399" } exampleParser
        [] ≠
      WriteManPage exampleEnv { tokyoHost with SOURCE_DATE_EPOCH := str "86399" } exampleParser
        [] := by
  decide

/-- C18 amended: with an override that `strconv.ParseInt` accepts as `sde`, the
document is a function of the parser, the override and the date that the process
gives the time `sde` (its time zone): two runs, on hosts `h₁` and `h₂` with the
same override and the same date for `sde`, write the same bytes whatever the
clocks of the two runs show, and what they write is the document for the time
`sde`; without an override the document is the one for the current time. -/
theorem WriteManPage_reproducible (env : Env) (h₁ h₂ : Host) (p : Parser) (wr : Text)
    (sde : Int) (hok : parseInt h₁.SOURCE_DATE_EPOCH = some sde)
    (hsame : h₂.SOURCE_DATE_EPOCH = h₁.SOURCE_DATE_EPOCH)
    (hdate : h₂.formatDate sde = h₁.formatDate sde) :
    WriteManPage env h₁ p wr = WriteManPage env h₂ p wr ∧
    (∃ doc, writeDocument env h₁.formatDate p [] sde = some doc ∧
      WriteManPage env h₁ p wr = some (Run.returned (wr ++ doc)) ∧
      WriteManPage env h₂ p wr = some (Run.returned (wr ++ doc)) ∧
      ∀ now : Int, WriteManPage env { h₁ with now := now } p wr =
        some (Run.returned (wr ++ doc))) ∧
    (∀ h : Host, h.SOURCE_DATE_EPOCH = [] →
      WriteManPage env h p wr = (writeDocument env h.formatDate p wr h.now).map Run.returned) := by
  have hne : h₁.SOURCE_DATE_EPOCH ≠ [] := by
    intro e
    rw [e] at hok
    have hnil : parseInt [] = none := by decide
    rw [hnil] at hok
    exact Option.noConfusion hok
  obtain ⟨doc, d0, d1⟩ := writeDocument_total env h₁.formatDate p wr sde
  have key : ∀ h : Host, h.SOURCE_DATE_EPOCH = h₁.SOURCE_DATE_EPOCH →
      h.formatDate sde = h₁.formatDate sde →
      WriteManPage env h p wr = some (Run.returned (wr ++ doc)) := by
    intro h hs hd
    unfold WriteManPage
    simp only [hs, hne, ne_eq, not_false_eq_true, if_true, hok,
      writeDocument_congr env h₁.formatDate h.formatDate p wr sde hd, d1, Option.map_some']
  refine ⟨by rw [key h₁ rfl rfl, key h₂ hsame hdate],
    ⟨doc, d0, key h₁ rfl rfl, key h₂ hsame hdate, fun now => key _ rfl rfl⟩, fun h he => ?_⟩
  unfold WriteManPage
  simp only [he, ne_eq, not_true_eq_false, if_false]

/-- Witness of C18 amended: the override `3600`, which both the example host and
the host in Asia/Tokyo date `1 January 1970`, with two different clocks. -/
theorem WriteManPage_reproducible_witness :
    WriteManPage exampleEnv { exampleHost with SOURCE_DATE_EPOCH := str "3600" } exampleParser
        [] =
      WriteManPage exampleEnv { tokyoHost with SOURCE_DATE_EPOCH := str "3600", now := 5 }
        exampleParser [] ∧
    (∃ doc,
      writeDocument exampleEnv
        ({ exampleHost with SOURCE_DATE_EPOCH := str "3600" } : Host).formatDate exampleParser
        [] 3600 = some doc ∧
      WriteManPage exampleEnv { exampleHost with SOURCE_DATE_EPOCH := str "3600" }
        exampleParser [] = some (Run.returned ([] ++ doc)) ∧
      WriteManPage exampleEnv { tokyoHost with SOURCE_DATE_EPOCH := str "3600", now := 5 }
        exampleParser [] = some (Run.returned ([] ++ doc)) ∧
      ∀ now : Int,
        WriteManPage exampleEnv
          { ({ exampleHost with SOURCE_DATE_EPOCH := str "3600" } : Host) with now := now }
          exampleParser [] = some (Run.returned ([] ++ doc))) ∧
    (∀ h : Host, h.SOURCE_DATE_EPOCH = [] →
      WriteManPage exampleEnv h exampleParser [] =
        (writeDocument exampleEnv h.formatDate exampleParser [] h.now).map Run.returned) :=
  WriteManPage_reproducible exampleEnv { exampleHost with SOURCE_DATE_EPOCH := str "3600" }
    { tokyoHost with SOURCE_DATE_EPOCH := str "3600", now := 5 } exampleParser [] 3600
    (by decide) rfl (by decide)

end Flags



